import Mathlib

/-!
Shallow embedding of the maze-search core of `laberinto.py` and
`laberintoFinal.py` (repository UwuweweOsas/Codigos).

The embedded parts are: maze parsing/validation (`mkMaze`), the neighbor
rule (`Maze.neighbors`), the four frontier strategies (`Frontier`), the
incremental search step (`Maze.step`, from `laberintoFinal.py`), and the
run-to-completion solver (`Maze.solveL`, from `laberinto.py`, plus the
initialization-only `Maze.solveF` of `laberintoFinal.py` iterated by
`Maze.runF`).  Python exceptions (IndexError on ragged rows, KeyError in
the A* cost map, "empty frontier") are modelled by `Option`/`Except`
`none`/`error` results; loops are given explicit fuel, with `none` inner
results marking exhausted fuel so that termination is a provable fact
rather than an assumption.
-/

namespace Laberinto

/-- Grid cell: an integer (row, column) pair, as the Python tuples. -/
abbrev Cell := Int × Int

/-- Search node (Python class `Node`): a state plus a backpointer chain.
In both source files `parent` and `action` are `None` exactly for the
start node (spec section 3), so the record with two optional fields is
embedded as two constructors. -/
inductive Node : Type where
  | start (state : Cell)
  | child (state : Cell) (parent : Node) (action : String)
deriving DecidableEq, Repr

/-- The `state` attribute of a node. -/
def Node.state : Node → Cell
  | .start s => s
  | .child s _ _ => s

/-- Manhattan distance: the `abs(a0-b0) + abs(a1-b1)` priority used by the
Greedy and A* frontiers. -/
def manhattan (a b : Cell) : Nat := (a.1 - b.1).natAbs + (a.2 - b.2).natAbs

/-- Association-list stand-in for the Python dict `g_costs`; only lookup
semantics are relied upon. -/
def alookup : List (Cell × Nat) → Cell → Option Nat
  | [], _ => none
  | (k, v) :: rest, s => if s = k then some v else alookup rest s

/-- Dict update `g_costs[k] = v`: the new binding shadows any old one. -/
def dictInsert (k : Cell) (v : Nat) (gc : List (Cell × Nat)) : List (Cell × Nat) :=
  (k, v) :: gc

/-- Stable insertion of a keyed entry: the new entry goes before the first
entry with a strictly larger key, hence after all entries of equal key. -/
def pyInsert (p : Nat × Node) : List (Nat × Node) → List (Nat × Node)
  | [] => [p]
  | q :: rest => if p.1 ≤ q.1 then p :: q :: rest else q :: pyInsert p rest

/-- Model of `list.sort(key=lambda x: x[0])`: Python's sort is stable, and
a stable sort is extensionally unique, so stable insertion sort is a
faithful model. -/
def pySort : List (Nat × Node) → List (Nat × Node)
  | [] => []
  | p :: rest => pyInsert p (pySort rest)

/-- The four frontier strategies of `laberintoFinal.py` (`StackFrontier`,
`QueueFrontier`, `GreedyFrontier`, `AStarFrontier`), as one tagged type so
that the duck-typed driver can be written once.  `laberinto.py` contains
the stack and queue variants only, with identical bodies. -/
inductive Frontier : Type where
  | stack (frontier : List Node)
  | queue (frontier : List Node)
  | greedy (goal : Cell) (frontier : List (Nat × Node))
  | astar (start goal : Cell) (g_costs : List (Cell × Nat)) (frontier : List (Nat × Node))
deriving DecidableEq, Repr

/-- The A* path cost `g = g_costs[parent.state] + 1 if node.parent else 0`;
a missing parent key is Python's `KeyError`, modelled as `none`. -/
def astarG (gc : List (Cell × Nat)) : Node → Option Nat
  | .start _ => some 0
  | .child _ p _ => (alookup gc p.state).map (· + 1)

/-- `add(node)`.  Stack and queue append; greedy keys by Manhattan
distance then stably sorts; A* computes `g`, records it in `g_costs`,
keys by `f = g + h` and stably sorts. -/
def Frontier.add (fr : Frontier) (node : Node) : Option Frontier :=
  match fr with
  | .stack ns => some (.stack (ns ++ [node]))
  | .queue ns => some (.queue (ns ++ [node]))
  | .greedy goal es =>
      some (.greedy goal (pySort (es ++ [(manhattan node.state goal, node)])))
  | .astar st goal gc es =>
      match astarG gc node with
      | none => none
      | some g =>
          some (.astar st goal (dictInsert node.state g gc)
            (pySort (es ++ [(g + manhattan node.state goal, node)])))

/-- `contains_state(state)`: whether some node in the frontier carries the
given state. -/
def Frontier.contains_state (fr : Frontier) (s : Cell) : Bool :=
  match fr with
  | .stack ns => ns.any (fun n => decide (n.state = s))
  | .queue ns => ns.any (fun n => decide (n.state = s))
  | .greedy _ es => es.any (fun p => decide (p.2.state = s))
  | .astar _ _ _ es => es.any (fun p => decide (p.2.state = s))

/-- `empty()`. -/
def Frontier.empty : Frontier → Bool
  | .stack ns => ns.isEmpty
  | .queue ns => ns.isEmpty
  | .greedy _ es => es.isEmpty
  | .astar _ _ _ es => es.isEmpty

/-- `remove()`: stack pops the last node, queue pops the first, greedy and
A* pop the head of the sorted keyed list.  Removing from an empty frontier
raises (`none`). -/
def Frontier.remove (fr : Frontier) : Option (Node × Frontier) :=
  match fr with
  | .stack ns =>
      match ns.getLast? with
      | none => none
      | some n => some (n, .stack ns.dropLast)
  | .queue ns =>
      match ns with
      | [] => none
      | n :: rest => some (n, .queue rest)
  | .greedy goal es =>
      match es with
      | [] => none
      | p :: rest => some (p.2, .greedy goal rest)
  | .astar st goal gc es =>
      match es with
      | [] => none
      | p :: rest => some (p.2, .astar st goal gc rest)

/-- The live nodes of a frontier, in internal order. -/
def Frontier.nodes : Frontier → List Node
  | .stack ns => ns
  | .queue ns => ns
  | .greedy _ es => es.map (·.2)
  | .astar _ _ _ es => es.map (·.2)

/-- The states of the live nodes. -/
def Frontier.states (fr : Frontier) : List Cell := fr.nodes.map Node.state

/-- The recorded `g` cost of a state (A* only; `none` elsewhere). -/
def Frontier.gLookup : Frontier → Cell → Option Nat
  | .astar _ _ gc _, s => alookup gc s
  | _, _ => none

/-- Whether the frontier is the A* variant. -/
def Frontier.isAstar : Frontier → Bool
  | .astar _ _ _ _ => true
  | _ => false

/-- The keyed entry list of a greedy or A* frontier (empty elsewhere). -/
def Frontier.entries : Frontier → List (Nat × Node)
  | .greedy _ es => es
  | .astar _ _ _ es => es
  | _ => []

/-- The maze model: the immutable fields set up by `Maze.__init__`.
The mutable search fields live in `SearchSt` below. -/
structure Maze : Type where
  height : Nat
  width : Nat
  walls : List (List Bool)
  start : Cell
  goal : Cell
deriving DecidableEq, Repr

/-- Number of occurrences of a marker across the whole text.  The Python
code counts on the raw string before splitting into lines; since the
markers are never newline characters the count over the split lines is the
same number. -/
def countChar (c : Char) (lines : List (List Char)) : Nat :=
  (lines.map (fun l => l.count c)).sum

/-- Positions `(i, j)` of a marker character, row-major, as the Python
list comprehension over `enumerate`. -/
def markerPositions (c : Char) (lines : List (List Char)) : List Cell :=
  lines.enum.flatMap (fun p =>
    p.2.enum.filterMap (fun q =>
      if q.2 = c then some ((p.1 : Int), (q.1 : Int)) else none))

/-- A cell character is a wall unless it is blank, `A` or `B`. -/
def isWallChar (c : Char) : Bool := c ≠ ' ' && c ≠ 'A' && c ≠ 'B'

/-- `Maze.__init__` after reading the file: validate exactly one `A` and
one `B`, then derive `height`, `width` (longest row), `walls` (rows kept
at their own lengths, exactly as the Python list comprehension), `start`
and `goal`.  Validation failure is the raised exception. -/
def mkMaze (lines : List (List Char)) : Except String Maze :=
  if countChar 'A' lines = 1 ∧ countChar 'B' lines = 1 then
    match markerPositions 'A' lines, markerPositions 'B' lines with
    | a :: _, b :: _ =>
        .ok { height := lines.length
              width := (lines.map List.length).foldr max 0
              walls := lines.map (fun l => l.map isWallChar)
              start := a
              goal := b }
    | _, _ => .error "marker position missing"
  else
    .error "maze must have exactly one start point and one goal"

/-- The bounds test `0 <= r < height and 0 <= c < width`. -/
def Maze.inBounds (m : Maze) (r c : Int) : Bool :=
  decide (0 ≤ r) && decide (r < (m.height : Int)) &&
  decide (0 ≤ c) && decide (c < (m.width : Int))

/-- The indexing `self.walls[r][c]`: `none` is Python's `IndexError`,
which can fire when a row is shorter than `width`. -/
def Maze.wallAt (m : Maze) (r c : Int) : Option Bool :=
  (m.walls.get? r.toNat).bind (fun row => row.get? c.toNat)

/-- The four axis-aligned candidate moves, in the fixed source order. -/
def candidates (s : Cell) : List (String × Cell) :=
  [("up", (s.1 - 1, s.2)), ("down", (s.1 + 1, s.2)),
   ("left", (s.1, s.2 - 1)), ("right", (s.1, s.2 + 1))]

/-- The filtering comprehension of `neighbors`: keep a candidate iff it is
in bounds and not a wall; evaluating the wall test beyond a short row's
length raises (`none`). -/
def Maze.neighborsAux (m : Maze) : List (String × Cell) → Option (List (String × Cell))
  | [] => some []
  | (a, s) :: rest =>
      if m.inBounds s.1 s.2 then
        match m.wallAt s.1 s.2 with
        | none => none
        | some true => m.neighborsAux rest
        | some false => (m.neighborsAux rest).map (fun l => (a, s) :: l)
      else m.neighborsAux rest

/-- `neighbors(state)` of both source files. -/
def Maze.neighbors (m : Maze) (s : Cell) : Option (List (String × Cell)) :=
  m.neighborsAux (candidates s)

/-- The mutable search fields that the Python code keeps on the maze
object.  `explored` is a Python `set`, modelled as a duplicate-free list
used only through membership; `laberinto.py` has no `solution_found` or
`frontier_nodes` fields and never touches them. -/
structure SearchSt : Type where
  num_explored : Nat
  explored : List Cell
  solution : Option (List String × List Cell)
  solution_found : Bool
  frontier_nodes : List Node
deriving DecidableEq, Repr

/-- `set.add`: insert if absent. -/
def addSet (s : Cell) (l : List Cell) : List Cell := if s ∈ l then l else s :: l

/-- The backpointer walk of the reconstruction loop: actions and states
collected from the goal node back to (excluding) the start node, in
goal-first order. -/
def collectRev : Node → List String × List Cell
  | .start _ => ([], [])
  | .child s p a => ((collectRev p).1.cons a, (collectRev p).2.cons s)

/-- The stored solution: both collected lists reversed into start-to-goal
order, as `actions.reverse(), cells.reverse()`. -/
def solutionOf (n : Node) : List String × List Cell :=
  ((collectRev n).1.reverse, (collectRev n).2.reverse)

/-- The neighbor-expansion `for` loop shared by `solve` and `step`: for
each neighbor not already in the (current) frontier and not explored, wrap
it in a child node and add it; `laberintoFinal.py` also collects the
children just added (the `acc` argument).  A failing `add` propagates. -/
def Maze.expand (m : Maze) (node : Node) (ex : List Cell) :
    Frontier → List Node → List (String × Cell) → Option (Frontier × List Node)
  | fr, acc, [] => some (fr, acc)
  | fr, acc, (a, s) :: rest =>
      if fr.contains_state s = false ∧ s ∉ ex then
        match fr.add (.child s node a) with
        | none => none
        | some fr' => m.expand node ex fr' (acc ++ [.child s node a]) rest
      else m.expand node ex fr acc rest

/-- `Maze.step(frontier)` of `laberintoFinal.py`: if the frontier is
nonempty, remove one node, count it, report success (storing the
reconstructed solution) when its state is the goal, otherwise mark it
explored, clear `frontier_nodes` and expand its neighbors; an empty
frontier just reports `False`. -/
def Maze.step (m : Maze) (st : SearchSt) (fr : Frontier) :
    Option (Bool × SearchSt × Frontier) :=
  if fr.empty then some (false, st, fr)
  else
    match fr.remove with
    | none => none
    | some (node, fr1) =>
        let st1 : SearchSt := { st with num_explored := st.num_explored + 1 }
        if node.state = m.goal then
          some (true,
            { st1 with solution := some (solutionOf node), solution_found := true }, fr1)
        else
          let ex : List Cell := addSet node.state st1.explored
          match m.neighbors node.state with
          | none => none
          | some nbrs =>
              match m.expand node ex fr1 [] nbrs with
              | none => none
              | some (fr2, added) =>
                  some (false,
                    { st1 with explored := ex, frontier_nodes := added }, fr2)

/-- The loop body of `Maze.solve` in `laberinto.py`: identical to `step`
except that the fields `solution_found` and `frontier_nodes` do not exist
there and are left untouched. -/
def Maze.stepL (m : Maze) (st : SearchSt) (fr : Frontier) :
    Option (Bool × SearchSt × Frontier) :=
  if fr.empty then some (false, st, fr)
  else
    match fr.remove with
    | none => none
    | some (node, fr1) =>
        let st1 : SearchSt := { st with num_explored := st.num_explored + 1 }
        if node.state = m.goal then
          some (true, { st1 with solution := some (solutionOf node) }, fr1)
        else
          let ex : List Cell := addSet node.state st1.explored
          match m.neighbors node.state with
          | none => none
          | some nbrs =>
              match m.expand node ex fr1 [] nbrs with
              | none => none
              | some (fr2, _) =>
                  some (false, { st1 with explored := ex }, fr2)

/-- The `while not frontier.empty()` loop of `Maze.solve` in
`laberinto.py`, with explicit fuel.  The inner `none` marks exhausted
fuel; the outer `none` a Python exception; `some false` is the
`return False` after the loop; `some true` the successful return. -/
def Maze.solveLoopL (m : Maze) :
    Nat → SearchSt → Frontier → Option (Option Bool × SearchSt × Frontier)
  | 0, st, fr => some (none, st, fr)
  | fuel + 1, st, fr =>
      if fr.empty then some (some false, st, fr)
      else
        match m.stepL st fr with
        | none => none
        | some (true, st', fr') => some (some true, st', fr')
        | some (false, st', fr') => m.solveLoopL fuel st' fr'

/-- `Maze.solve(frontier)` of `laberinto.py`: reset `num_explored`, add
the start node to the frontier, reset `explored`, then loop.  Note that
this version does not touch `solution` during initialization. -/
def Maze.solveL (m : Maze) (fuel : Nat) (st : SearchSt) (fr : Frontier) :
    Option (Option Bool × SearchSt × Frontier) :=
  match fr.add (.start m.start) with
  | none => none
  | some fr1 => m.solveLoopL fuel { st with num_explored := 0, explored := [] } fr1

/-- `Maze.solve(frontier)` of `laberintoFinal.py`: initialization only —
reset the counters, add the start node, clear `explored`, `solution_found`,
`solution` and `frontier_nodes`; the loop is driven by repeated `step`. -/
def Maze.solveF (m : Maze) (fr : Frontier) : Option (SearchSt × Frontier) :=
  match fr.add (.start m.start) with
  | none => none
  | some fr1 =>
      some ({ num_explored := 0, explored := [], solution := none,
              solution_found := false, frontier_nodes := [] }, fr1)

/-- Driving `step` to completion, as the animation loop of
`laberintoFinal.py` does: step until `True` is returned or the frontier is
exhausted.  Inner `none` marks exhausted fuel, outer `none` an exception. -/
def Maze.runF (m : Maze) :
    Nat → SearchSt → Frontier → Option (Option Bool × SearchSt × Frontier)
  | 0, st, fr => some (none, st, fr)
  | fuel + 1, st, fr =>
      match m.step st fr with
      | none => none
      | some (true, st', fr') => some (some true, st', fr')
      | some (false, st', fr') =>
          if fr'.empty then some (some false, st', fr')
          else m.runF fuel st' fr'

/-- The four selectable strategies. -/
inductive Strategy : Type where
  | dfs
  | bfs
  | greedy
  | astar
deriving DecidableEq, Repr

/-- The fresh frontier each `solve_*` method constructs:
`StackFrontier()`, `QueueFrontier()`, `GreedyFrontier(self.goal)` or
`AStarFrontier(self.start, self.goal)` (whose constructor sets
`g_costs = dict with start mapped to 0`). -/
def initFrontier : Strategy → Maze → Frontier
  | .dfs, _ => .stack []
  | .bfs, _ => .queue []
  | .greedy, m => .greedy m.goal []
  | .astar, m => .astar m.start m.goal (dictInsert m.start 0 []) []

/-- A whole search in `laberintoFinal.py`: `solve` (initialization) then
`step` iterated to completion. -/
def Maze.runSearch (m : Maze) (strat : Strategy) (fuel : Nat) :
    Option (Option Bool × SearchSt × Frontier) :=
  match m.solveF (initFrontier strat m) with
  | none => none
  | some (st, fr) => m.runF fuel st fr

/-- A run result is definitive when it is an exception or a boolean — not
an out-of-fuel marker.  Used to state termination. -/
def definitive : Option (Option Bool × SearchSt × Frontier) → Bool
  | none => true
  | some (b, _, _) => b.isSome

/-- Sortedness of a keyed frontier list by its numeric key. -/
def KeySorted (l : List (Nat × Node)) : Prop :=
  List.Sorted (fun a b : Nat × Node => a.1 ≤ b.1) l

/-- Insertion of a keyed entry after all entries of less-or-equal key:
what a stable sort does to an already sorted list with one new element
appended.  `pySort (l ++ p single)` is proved equal to this on sorted `l`. -/
def insertTail (p : Nat × Node) : List (Nat × Node) → List (Nat × Node)
  | [] => [p]
  | q :: rest => if q.1 ≤ p.1 then q :: insertTail p rest else p :: q :: rest

/-- Precondition under which `Frontier.add` cannot raise: only an A* add
of a node whose parent state is missing from `g_costs` raises. -/
def Frontier.addOK (fr : Frontier) (n : Node) : Prop :=
  match n with
  | .start _ => True
  | .child _ p _ => fr.isAstar = true → fr.gLookup p.state ≠ none

/-- Every node in the frontier has its state recorded in the A* cost map
(vacuous for the other strategies). -/
def Frontier.KeysOK (fr : Frontier) : Prop :=
  ∀ n ∈ fr.nodes, fr.isAstar = true → fr.gLookup n.state ≠ none

/-- A sequence of `add` calls (used to state the greedy and A* removal
order over an arbitrary insertion sequence). -/
def Frontier.addAll (fr : Frontier) (ns : List Node) : Option Frontier :=
  ns.foldl (fun o n => o.bind (fun f => f.add n)) (some fr)

/-- All in-bounds cells of a maze, row-major. -/
def boundsL (m : Maze) : List Cell :=
  (List.range m.height).flatMap (fun (i : Nat) =>
    (List.range m.width).map (fun (j : Nat) => ((i : Int), (j : Int))))

/-- A maze whose wall grid is rectangular: one row per grid row, each of
full width.  On such mazes the `walls[r][c]` lookup never raises. -/
def Maze.Rect (m : Maze) : Prop :=
  m.walls.length = m.height ∧ ∀ row ∈ m.walls, row.length = m.width

/-- The ancestry chain of a node is a genuine path: it is rooted at the
start cell and every link was produced by `neighbors`. -/
inductive ValidChain (m : Maze) : Node → Prop where
  | root : ValidChain m (.start m.start)
  | link : ∀ p a s l, ValidChain m p → m.neighbors p.state = some l →
      (a, s) ∈ l → ValidChain m (.child s p a)

/-- The cells along a chain in start-to-goal order, start cell excluded. -/
def chainCells : Node → List Cell
  | .start _ => []
  | .child s p _ => chainCells p ++ [s]

/-- The actions along a chain in start-to-goal order. -/
def chainActs : Node → List String
  | .start _ => []
  | .child _ p a => chainActs p ++ [a]

/-- The unit move named by an action, as the directional-delta dictionary
of `move_player` (an unknown direction moves nowhere). -/
def applyAction (a : String) (s : Cell) : Cell :=
  if a = "up" then (s.1 - 1, s.2)
  else if a = "down" then (s.1 + 1, s.2)
  else if a = "left" then (s.1, s.2 - 1)
  else if a = "right" then (s.1, s.2 + 1)
  else s

/-- The cells visited by applying a list of actions in order from a cell
(the starting cell itself excluded). -/
def walk : Cell → List String → List Cell
  | _, [] => []
  | s, a :: rest => applyAction a s :: walk (applyAction a s) rest

/-- Modelled from the spec (section 4.2): the earliest-inserted node among
those of minimal key — `remove` returns the node with smallest key, ties
broken by insertion order. -/
def specFirstMinNode (f : Node → Nat) : Node → List Node → Node
  | best, [] => best
  | best, n :: rest =>
      if f n < f best then specFirstMinNode f n rest else specFirstMinNode f best rest

/-- Modelled from the spec (section 4.2): the earliest keyed entry among
those of minimal key in an insertion sequence. -/
def specFirstMinPair : Nat × Node → List (Nat × Node) → Nat × Node
  | best, [] => best
  | best, p :: rest =>
      if p.1 < best.1 then specFirstMinPair p rest else specFirstMinPair best rest

/-- Modelled from the spec (section 4.2): the key `f = g + h` that each
successive A* insertion is assigned, with `g = g(parent) + 1` (`0` for a
parentless node) read off the evolving cost map. -/
def specAStarKeys (goal : Cell) : List (Cell × Nat) → List Node → Option (List Nat)
  | _, [] => some []
  | gc, n :: rest =>
      match astarG gc n with
      | none => none
      | some g =>
          (specAStarKeys goal (dictInsert n.state g gc) rest).map
            (fun ks => (g + manhattan n.state goal) :: ks)

/-- The search-loop invariant: frontier states are distinct, disjoint from
the explored set, everything ever discovered is in bounds (or is the start
cell), the start cell has been discovered, every frontier node carries a
valid ancestry chain avoiding the start cell, and the A* cost map has a
key for every frontier node and no keys beyond the discovered states. -/
structure SInv (m : Maze) (st : SearchSt) (fr : Frontier) : Prop where
  nodupF : fr.states.Nodup
  nodupE : st.explored.Nodup
  disj : ∀ s ∈ fr.states, s ∉ st.explored
  boundsF : ∀ s ∈ fr.states, s ∈ boundsL m ∨ s = m.start
  boundsE : ∀ s ∈ st.explored, s ∈ boundsL m ∨ s = m.start
  startMem : m.start ∈ fr.states ∨ m.start ∈ st.explored
  chains : ∀ n ∈ fr.nodes, ValidChain m n ∧ ∀ c ∈ chainCells n, c ≠ m.start
  keysPres : fr.KeysOK
  keysDom : ∀ s, fr.gLookup s ≠ none → s ∈ fr.states ∨ s ∈ st.explored ∨ s = m.start

/-- The search states reachable in `laberintoFinal.py`: right after
`solve(frontier)` with a fresh strategy frontier, or after one more
`step` that has not yet found the goal (the animation loop stops stepping
once `step` returns `True`). -/
inductive Maze.Reach (m : Maze) (strat : Strategy) : SearchSt → Frontier → Prop where
  | init : ∀ st fr, m.solveF (initFrontier strat m) = some (st, fr) → m.Reach strat st fr
  | next : ∀ st fr st' fr', m.Reach strat st fr → m.step st fr = some (false, st', fr') →
      m.Reach strat st' fr'

/-- Lines of a maze text. -/
def linesOf (l : List String) : List (List Char) := l.map String.toList

/-- The fresh search state a maze starts with
(`num_explored = 0`, nothing explored, no solution). -/
def stInit : SearchSt :=
  { num_explored := 0, explored := [], solution := none,
    solution_found := false, frontier_nodes := [] }

/-- The 1x2 maze `AB`: start `(0,0)`, goal `(0,1)`, no walls. -/
def mazeAB : Maze :=
  { height := 1, width := 2, walls := [[false, false]],
    start := (0, 0), goal := (0, 1) }

/-- The 1x3 maze `A#B`: the goal is walled off, every search fails. -/
def mazeWall : Maze :=
  { height := 1, width := 3, walls := [[false, true, false]],
    start := (0, 0), goal := (0, 2) }

/-- The ragged maze with rows `#A` and `B`: valid text (one `A`, one `B`)
whose second row is shorter than `width`, so the wall lookup at `(1,1)`
raises `IndexError`. -/
def mazeRag : Maze :=
  { height := 2, width := 2, walls := [[true, false], [false]],
    start := (0, 1), goal := (1, 0) }

/-- The search state after the exhausted BFS run on `mazeWall`. -/
def stWallDone : SearchSt :=
  { num_explored := 1, explored := [(0, 0)], solution := none,
    solution_found := false, frontier_nodes := [] }

/-- The search state after the failed `laberinto.py`-style run on `mazeWall`
that was started while a stale solution was still stored. -/
def stWallStale : SearchSt :=
  { num_explored := 1, explored := [(0, 0)], solution := some ([], []),
    solution_found := false, frontier_nodes := [] }

/-- The search state after the successful DFS run on `mazeAB`. -/
def stABdone : SearchSt :=
  { num_explored := 2, explored := [(0, 0)],
    solution := some (["right"], [(0, 1)]), solution_found := true,
    frontier_nodes := [Node.child (0, 1) (Node.start (0, 0)) "right"] }

/-- The A* frontier right after `solve` initialization on `mazeAB`. -/
def frABastar : Frontier :=
  .astar (0, 0) (0, 1) [((0, 0), 0), ((0, 0), 0)] [(1, Node.start (0, 0))]

/-- A fresh A* frontier after adding the parentless node `(0, 1)`. -/
def frAdd1 : Frontier := .astar (0, 0) (0, 1) [((0, 1), 0)] [(0, Node.start (0, 1))]

/-- An A* frontier after adding a child of the start node. -/
def frAdd2 : Frontier :=
  .astar (0, 0) (1, 1) [((0, 1), 1), ((0, 0), 0)]
    [(2, Node.child (0, 1) (Node.start (0, 0)) "right")]

/-- A fresh A* frontier after one `addAll` insertion of the start node. -/
def frAddAllB : Frontier :=
  .astar (0, 0) (0, 0) [((0, 0), 0), ((0, 0), 0)] [(0, Node.start (0, 0))]

/-- The search state after one A* step on `mazeAB`. -/
def stABstep1 : SearchSt :=
  { num_explored := 1, explored := [(0, 0)], solution := none,
    solution_found := false,
    frontier_nodes := [Node.child (0, 1) (Node.start (0, 0)) "right"] }

/-- The A* frontier after one step on `mazeAB`. -/
def frABstep1 : Frontier :=
  .astar (0, 0) (0, 1) [((0, 1), 1), ((0, 0), 0), ((0, 0), 0)]
    [(1, Node.child (0, 1) (Node.start (0, 0)) "right")]

/-! ### Stable sort lemmas -/

theorem pyInsert_perm (p : Nat × Node) (l : List (Nat × Node)) :
    (pyInsert p l).Perm (p :: l) := by
  induction l with
  | nil => simp [pyInsert]
  | cons q rest ih =>
      by_cases h : p.1 ≤ q.1
      · simp [pyInsert, h]
      · simp only [pyInsert, if_neg h]
        exact (ih.cons q).trans (List.Perm.swap p q rest)

theorem pySort_perm (l : List (Nat × Node)) : (pySort l).Perm l := by
  induction l with
  | nil => simp [pySort]
  | cons p rest ih => exact (pyInsert_perm p (pySort rest)).trans (ih.cons p)

theorem pyInsert_cons_of_le {p q : Nat × Node} {rest : List (Nat × Node)}
    (h : p.1 ≤ q.1) : pyInsert p (q :: rest) = p :: q :: rest := by
  simp [pyInsert, h]

theorem pyInsert_cons_of_gt {p q : Nat × Node} {rest : List (Nat × Node)}
    (h : ¬ p.1 ≤ q.1) : pyInsert p (q :: rest) = q :: pyInsert p rest := by
  simp [pyInsert, h]

theorem insertTail_cons_of_le {p q : Nat × Node} {rest : List (Nat × Node)}
    (h : q.1 ≤ p.1) : insertTail p (q :: rest) = q :: insertTail p rest := by
  simp [insertTail, h]

theorem insertTail_cons_of_gt {p q : Nat × Node} {rest : List (Nat × Node)}
    (h : ¬ q.1 ≤ p.1) : insertTail p (q :: rest) = p :: q :: rest := by
  simp [insertTail, h]

theorem insertTail_perm (p : Nat × Node) (l : List (Nat × Node)) :
    (insertTail p l).Perm (p :: l) := by
  induction l with
  | nil => simp [insertTail]
  | cons q rest ih =>
      by_cases h : q.1 ≤ p.1
      · rw [insertTail_cons_of_le h]
        exact (ih.cons q).trans (List.Perm.swap p q rest)
      · rw [insertTail_cons_of_gt h]

theorem keySorted_cons {q : Nat × Node} {rest : List (Nat × Node)} :
    KeySorted (q :: rest) ↔ (∀ y ∈ rest, q.1 ≤ y.1) ∧ KeySorted rest := by
  unfold KeySorted
  exact List.sorted_cons

theorem pySort_sorted_append (p : Nat × Node) :
    ∀ l : List (Nat × Node), KeySorted l → pySort (l ++ [p]) = insertTail p l := by
  intro l
  induction l with
  | nil => intro _; simp [pySort, pyInsert, insertTail]
  | cons q rest ih =>
      intro h
      obtain ⟨hq, hrest⟩ := keySorted_cons.mp h
      show pyInsert q (pySort (rest ++ [p])) = insertTail p (q :: rest)
      rw [ih hrest]
      by_cases hqp : q.1 ≤ p.1
      · rw [insertTail_cons_of_le hqp]
        cases rest with
        | nil => simp [insertTail, pyInsert, hqp]
        | cons y ys =>
            by_cases hyp : y.1 ≤ p.1
            · rw [insertTail_cons_of_le hyp, pyInsert_cons_of_le (hq y (by simp))]
            · rw [insertTail_cons_of_gt hyp, pyInsert_cons_of_le hqp]
      · rw [insertTail_cons_of_gt hqp]
        have hrp : insertTail p rest = p :: rest := by
          cases rest with
          | nil => simp [insertTail]
          | cons y ys =>
              have : ¬ y.1 ≤ p.1 := fun hle => hqp (le_trans (hq y (by simp)) hle)
              rw [insertTail_cons_of_gt this]
        rw [hrp, pyInsert_cons_of_gt hqp]
        have : pyInsert q rest = q :: rest := by
          cases rest with
          | nil => simp [pyInsert]
          | cons y ys => rw [pyInsert_cons_of_le (hq y (by simp))]
        rw [this]

theorem insertTail_sorted (p : Nat × Node) :
    ∀ l : List (Nat × Node), KeySorted l → KeySorted (insertTail p l) := by
  intro l
  induction l with
  | nil => intro _; simp [insertTail, KeySorted]
  | cons q rest ih =>
      intro h
      obtain ⟨hq, hrest⟩ := keySorted_cons.mp h
      by_cases hqp : q.1 ≤ p.1
      · rw [insertTail_cons_of_le hqp]
        refine keySorted_cons.mpr ⟨?_, ih hrest⟩
        intro y hy
        rcases List.mem_cons.mp ((insertTail_perm p rest).mem_iff.mp hy) with hy' | hy'
        · rw [hy']; exact hqp
        · exact hq y hy'
      · rw [insertTail_cons_of_gt hqp]
        refine keySorted_cons.mpr ⟨?_, h⟩
        intro y hy
        rcases List.mem_cons.mp hy with hy' | hy'
        · rw [hy']; exact le_of_lt (lt_of_not_le hqp)
        · exact le_trans (le_of_lt (lt_of_not_le hqp)) (hq y hy')

theorem foldl_insertTail_head :
    ∀ (ps : List (Nat × Node)) (l : List (Nat × Node)) (q : Nat × Node),
      KeySorted l → l.head? = some q →
      KeySorted (ps.foldl (fun acc p => insertTail p acc) l) ∧
      (ps.foldl (fun acc p => insertTail p acc) l).head? =
        some (specFirstMinPair q ps) := by
  intro ps
  induction ps with
  | nil => intro l q hs hh; exact ⟨hs, by simpa [specFirstMinPair] using hh⟩
  | cons p ps' ih =>
      intro l q hs hh
      cases l with
      | nil => simp at hh
      | cons q0 rest =>
          have hq0 : q0 = q := by simpa using hh
          subst hq0
          simp only [List.foldl_cons]
          have hs' : KeySorted (insertTail p (q0 :: rest)) := insertTail_sorted p _ hs
          by_cases hqp : q0.1 ≤ p.1
          · have hh' : (insertTail p (q0 :: rest)).head? = some q0 := by
              rw [insertTail_cons_of_le hqp]; rfl
            have := ih _ q0 hs' hh'
            simpa [specFirstMinPair, show ¬ p.1 < q0.1 from not_lt.mpr hqp] using this
          · have hh' : (insertTail p (q0 :: rest)).head? = some p := by
              rw [insertTail_cons_of_gt hqp]; rfl
            have := ih _ p hs' hh'
            simpa [specFirstMinPair, show p.1 < q0.1 from lt_of_not_le hqp] using this

theorem specFirstMinPair_min (q : Nat × Node) (ps : List (Nat × Node)) :
    (specFirstMinPair q ps).1 ≤ q.1 ∧ ∀ p ∈ ps, (specFirstMinPair q ps).1 ≤ p.1 := by
  induction ps generalizing q with
  | nil => simp [specFirstMinPair]
  | cons p ps' ih =>
      by_cases h : p.1 < q.1
      · simp only [specFirstMinPair, if_pos h]
        obtain ⟨h1, h2⟩ := ih p
        refine ⟨le_trans h1 (le_of_lt h), ?_⟩
        intro r hr
        rcases List.mem_cons.mp hr with hr' | hr'
        · rw [hr']; exact h1
        · exact h2 r hr'
      · simp only [specFirstMinPair, if_neg h]
        obtain ⟨h1, h2⟩ := ih q
        refine ⟨h1, ?_⟩
        intro r hr
        rcases List.mem_cons.mp hr with hr' | hr'
        · rw [hr']; exact le_trans h1 (not_lt.mp h)
        · exact h2 r hr'

theorem specFirstMinPair_map (f : Node → Nat) :
    ∀ (ns : List Node) (n : Node),
      specFirstMinPair (f n, n) (ns.map (fun x => (f x, x))) =
        (f (specFirstMinNode f n ns), specFirstMinNode f n ns) := by
  intro ns
  induction ns with
  | nil => intro n; simp [specFirstMinPair, specFirstMinNode]
  | cons x rest ih =>
      intro n
      by_cases h : f x < f n
      · simp [specFirstMinPair, specFirstMinNode, h, ih]
      · simp [specFirstMinPair, specFirstMinNode, h, ih]

theorem specFirstMinNode_min (f : Node → Nat) (n : Node) (ns : List Node) :
    f (specFirstMinNode f n ns) ≤ f n ∧ ∀ x ∈ ns, f (specFirstMinNode f n ns) ≤ f x := by
  have h := specFirstMinPair_min (f n, n) (ns.map (fun x => (f x, x)))
  rw [specFirstMinPair_map] at h
  refine ⟨h.1, ?_⟩
  intro x hx
  exact h.2 (f x, x) (List.mem_map_of_mem _ hx)

/-! ### Frontier operation lemmas -/

theorem empty_iff_nodes (fr : Frontier) : fr.empty = true ↔ fr.nodes = [] := by
  cases fr <;> simp [Frontier.empty, Frontier.nodes]

theorem empty_false_nodes {fr : Frontier} (h : fr.empty = false) : fr.nodes ≠ [] := by
  intro hc
  rw [← empty_iff_nodes] at hc
  rw [h] at hc
  exact Bool.false_ne_true hc

theorem contains_iff (fr : Frontier) (s : Cell) :
    fr.contains_state s = true ↔ s ∈ fr.states := by
  cases fr <;>
    simp [Frontier.contains_state, Frontier.states, Frontier.nodes,
      List.any_eq_true]

theorem addAll_from_none (ns : List Node) :
    ns.foldl (fun (o : Option Frontier) n => o.bind (fun f => f.add n)) none = none := by
  induction ns with
  | nil => rfl
  | cons x rest ih => exact ih

theorem addAll_cons (fr : Frontier) (n : Node) (ns : List Node) :
    fr.addAll (n :: ns) = (fr.add n).bind (fun f => f.addAll ns) := by
  show ns.foldl (fun o n => o.bind (fun f => f.add n)) (fr.add n) = _
  cases h : fr.add n with
  | none => exact addAll_from_none ns
  | some fr' => rfl

theorem remove_spec (fr : Frontier) (h : fr.empty = false) :
    ∃ n fr', fr.remove = some (n, fr') ∧ fr.nodes.Perm (n :: fr'.nodes) ∧
      fr'.gLookup = fr.gLookup ∧ fr'.isAstar = fr.isAstar := by
  cases fr with
  | stack ns =>
      have hne : ns ≠ [] := empty_false_nodes h
      refine ⟨ns.getLast hne, .stack ns.dropLast, ?_, ?_, rfl, rfl⟩
      · simp [Frontier.remove, List.getLast?_eq_getLast ns hne]
      · simp only [Frontier.nodes]
        conv_lhs => rw [← List.dropLast_append_getLast hne]
        have h3 := @List.perm_middle _ (ns.getLast hne) ns.dropLast []
        rw [List.append_nil] at h3
        exact h3
  | queue ns =>
      cases ns with
      | nil => exact absurd rfl (empty_false_nodes h)
      | cons n rest => exact ⟨n, .queue rest, rfl, by simp [Frontier.nodes], rfl, rfl⟩
  | greedy goal es =>
      cases es with
      | nil => exact absurd rfl (@empty_false_nodes (.greedy goal []) h)
      | cons p rest =>
          exact ⟨p.2, .greedy goal rest, rfl, by simp [Frontier.nodes], rfl, rfl⟩
  | astar st goal gc es =>
      cases es with
      | nil => exact absurd rfl (@empty_false_nodes (.astar st goal gc []) h)
      | cons p rest =>
          exact ⟨p.2, .astar st goal gc rest, rfl, by simp [Frontier.nodes], rfl, rfl⟩

theorem alookup_dictInsert (k : Cell) (v : Nat) (gc : List (Cell × Nat)) (s : Cell) :
    alookup (dictInsert k v gc) s = if s = k then some v else alookup gc s := by
  simp [dictInsert, alookup]

theorem add_spec {fr : Frontier} {n : Node} {fr' : Frontier} (h : fr.add n = some fr') :
    fr'.nodes.Perm (n :: fr.nodes) ∧ fr'.isAstar = fr.isAstar ∧
    (∀ s, s ≠ n.state → fr'.gLookup s = fr.gLookup s) ∧
    (fr.isAstar = true → fr'.gLookup n.state ≠ none) ∧
    (∀ s, fr'.gLookup s ≠ none → fr.gLookup s ≠ none ∨ s = n.state) ∧
    (∀ s, fr.gLookup s ≠ none → fr'.gLookup s ≠ none) := by
  cases fr with
  | stack ns =>
      simp only [Frontier.add, Option.some_inj] at h
      subst h
      simp [Frontier.nodes, Frontier.isAstar, Frontier.gLookup,
        List.perm_append_singleton]
  | queue ns =>
      simp only [Frontier.add, Option.some_inj] at h
      subst h
      simp [Frontier.nodes, Frontier.isAstar, Frontier.gLookup,
        List.perm_append_singleton]
  | greedy goal es =>
      simp only [Frontier.add, Option.some_inj] at h
      subst h
      refine ⟨?_, by simp [Frontier.isAstar], by simp [Frontier.gLookup],
        by simp [Frontier.isAstar], by simp [Frontier.gLookup],
        by simp [Frontier.gLookup]⟩
      simp only [Frontier.nodes]
      have h1 := (pySort_perm (es ++ [(manhattan n.state goal, n)])).map (·.2)
      have h2 : (es ++ [(manhattan n.state goal, n)]).map (·.2) =
          es.map (·.2) ++ [n] := by simp
      exact h1.trans (by rw [h2]; exact List.perm_append_singleton n _)
  | astar stc goal gc es =>
      simp only [Frontier.add] at h
      cases hg : astarG gc n with
      | none => rw [hg] at h; exact absurd h (by simp)
      | some g =>
          rw [hg] at h
          simp only [Option.some_inj] at h
          subst h
          refine ⟨?_, by simp [Frontier.isAstar], ?_, ?_, ?_, ?_⟩
          · simp only [Frontier.nodes]
            have h1 := (pySort_perm (es ++ [(g + manhattan n.state goal, n)])).map (·.2)
            have h2 : (es ++ [(g + manhattan n.state goal, n)]).map (·.2) =
                es.map (·.2) ++ [n] := by simp
            exact h1.trans (by rw [h2]; exact List.perm_append_singleton n _)
          · intro s hs
            simp [Frontier.gLookup, alookup_dictInsert, hs]
          · intro _
            simp [Frontier.gLookup, alookup_dictInsert]
          · intro s hs
            by_cases hsn : s = n.state
            · exact Or.inr hsn
            · left
              intro hc
              apply hs
              show alookup (dictInsert n.state g gc) s = none
              rw [alookup_dictInsert, if_neg hsn]
              exact hc
          · intro s hs
            by_cases hsn : s = n.state
            · simp [Frontier.gLookup, alookup_dictInsert, hsn]
            · intro hc
              apply hs
              rw [show (Frontier.astar stc goal (dictInsert n.state g gc)
                  (pySort (es ++ [(g + manhattan n.state goal, n)]))).gLookup s =
                  alookup (dictInsert n.state g gc) s from rfl,
                alookup_dictInsert, if_neg hsn] at hc
              exact hc

theorem add_total (fr : Frontier) (n : Node) (h : fr.addOK n) :
    (fr.add n).isSome = true := by
  cases fr with
  | stack ns => rfl
  | queue ns => rfl
  | greedy goal es => rfl
  | astar stc goal gc es =>
      cases n with
      | start s => rfl
      | child s p a =>
          have hk : alookup gc p.state ≠ none := h (by simp [Frontier.isAstar])
          cases hv : alookup gc p.state with
          | none => exact absurd hv hk
          | some v => simp [Frontier.add, astarG, hv]

theorem contains_false {fr : Frontier} {s : Cell} (h : fr.contains_state s = false) :
    s ∉ fr.states := by
  intro hc
  rw [← contains_iff] at hc
  rw [h] at hc
  exact Bool.false_ne_true hc

/-! ### Bounds and neighbors lemmas -/

theorem mem_boundsL (m : Maze) (r c : Int) :
    ((r, c) ∈ boundsL m) ↔ m.inBounds r c = true := by
  constructor
  · intro h
    rw [boundsL, List.mem_flatMap] at h
    obtain ⟨i, hi, h2⟩ := h
    rw [List.mem_map] at h2
    obtain ⟨j, hj, heq⟩ := h2
    rw [List.mem_range] at hi
    rw [List.mem_range] at hj
    cases heq
    simp only [Maze.inBounds, Bool.and_eq_true, decide_eq_true_eq]
    refine ⟨⟨⟨?_, ?_⟩, ?_⟩, ?_⟩ <;> omega
  · intro h
    simp only [Maze.inBounds, Bool.and_eq_true, decide_eq_true_eq] at h
    obtain ⟨⟨⟨h0r, hr⟩, h0c⟩, hc⟩ := h
    rw [boundsL, List.mem_flatMap]
    refine ⟨r.toNat, ?_, ?_⟩
    · rw [List.mem_range]; omega
    · rw [List.mem_map]
      refine ⟨c.toNat, by rw [List.mem_range]; omega, ?_⟩
      have e1 : ((r.toNat : Nat) : Int) = r := by omega
      have e2 : ((c.toNat : Nat) : Int) = c := by omega
      rw [e1, e2]

theorem length_boundsL (m : Maze) : (boundsL m).length = m.height * m.width := by
  rw [boundsL, List.length_flatMap]
  have hrep : List.map (List.length ∘ fun (i : Nat) => (List.range m.width).map
      (fun (j : Nat) => ((i : Int), (j : Int)))) (List.range m.height) =
      List.replicate m.height m.width := by
    apply List.eq_replicate_iff.mpr
    refine ⟨by simp, ?_⟩
    intro b hb
    rw [List.mem_map] at hb
    obtain ⟨i, _, hi⟩ := hb
    rw [← hi]
    simp
  rw [hrep, List.sum_replicate, smul_eq_mul]

theorem wallAt_total {m : Maze} (hre : m.Rect) {r c : Int}
    (h : m.inBounds r c = true) : ∃ b, m.wallAt r c = some b := by
  obtain ⟨hl, hrow⟩ := hre
  simp only [Maze.inBounds, Bool.and_eq_true, decide_eq_true_eq] at h
  obtain ⟨⟨⟨h0r, hr⟩, h0c⟩, hc⟩ := h
  have hrn : r.toNat < m.walls.length := by rw [hl]; omega
  have hget := List.get?_eq_get hrn
  have hmem := List.get_mem m.walls r.toNat hrn
  have hlen : (m.walls.get ⟨r.toNat, hrn⟩).length = m.width := hrow _ hmem
  have hcn : c.toNat < (m.walls.get ⟨r.toNat, hrn⟩).length := by rw [hlen]; omega
  refine ⟨(m.walls.get ⟨r.toNat, hrn⟩).get ⟨c.toNat, hcn⟩, ?_⟩
  unfold Maze.wallAt
  rw [hget, Option.some_bind]
  exact List.get?_eq_get hcn

theorem neighborsAux_total {m : Maze} (hre : m.Rect) :
    ∀ cl : List (String × Cell), ∃ l, m.neighborsAux cl = some l := by
  intro cl
  induction cl with
  | nil => exact ⟨[], rfl⟩
  | cons p rest ih =>
      obtain ⟨a, s⟩ := p
      obtain ⟨l, hl⟩ := ih
      by_cases hb : m.inBounds s.1 s.2 = true
      · obtain ⟨b, hw⟩ := wallAt_total hre hb
        cases b with
        | true => exact ⟨l, by simp [Maze.neighborsAux, hb, hw, hl]⟩
        | false => exact ⟨(a, s) :: l, by simp [Maze.neighborsAux, hb, hw, hl]⟩
      · exact ⟨l, by simp [Maze.neighborsAux, hb, hl]⟩

theorem neighbors_total {m : Maze} (hre : m.Rect) (s : Cell) :
    ∃ l, m.neighbors s = some l :=
  neighborsAux_total hre (candidates s)

theorem neighborsAux_mem {m : Maze} :
    ∀ (cl : List (String × Cell)) (l : List (String × Cell)),
      m.neighborsAux cl = some l → ∀ a s, (a, s) ∈ l →
      (a, s) ∈ cl ∧ m.inBounds s.1 s.2 = true ∧ m.wallAt s.1 s.2 = some false := by
  intro cl
  induction cl with
  | nil =>
      intro l hl a s hm
      simp only [Maze.neighborsAux, Option.some_inj] at hl
      subst hl
      simp at hm
  | cons p rest ih =>
      obtain ⟨a0, s0⟩ := p
      intro l hl a s hm
      by_cases hb : m.inBounds s0.1 s0.2 = true
      · cases hw : m.wallAt s0.1 s0.2 with
        | none => simp [Maze.neighborsAux, hb, hw] at hl
        | some b =>
            cases b with
            | true =>
                simp only [Maze.neighborsAux, hb, if_true, hw] at hl
                obtain ⟨h1, h2, h3⟩ := ih l hl a s hm
                exact ⟨List.mem_cons_of_mem _ h1, h2, h3⟩
            | false =>
                simp only [Maze.neighborsAux, hb, if_true, hw, Option.map_eq_some'] at hl
                obtain ⟨l', hl', rfl⟩ := hl
                rcases List.mem_cons.mp hm with hm' | hm'
                · obtain ⟨ha, hs⟩ := Prod.mk.injEq .. ▸ hm'
                  subst ha
                  subst hs
                  exact ⟨List.mem_cons_self _ _, hb, hw⟩
                · obtain ⟨h1, h2, h3⟩ := ih l' hl' a s hm'
                  exact ⟨List.mem_cons_of_mem _ h1, h2, h3⟩
      · simp only [Maze.neighborsAux, hb, if_false] at hl
        obtain ⟨h1, h2, h3⟩ := ih l hl a s hm
        exact ⟨List.mem_cons_of_mem _ h1, h2, h3⟩

theorem candidates_mem {t : Cell} {a : String} {s : Cell}
    (h : (a, s) ∈ candidates t) : s = applyAction a t := by
  simp only [candidates, List.mem_cons, List.not_mem_nil, or_false,
    Prod.mk.injEq] at h
  rcases h with ⟨ha, hs⟩ | ⟨ha, hs⟩ | ⟨ha, hs⟩ | ⟨ha, hs⟩ <;>
    (subst ha; subst hs; simp [applyAction])

theorem neighbors_mem {m : Maze} {t : Cell} {l : List (String × Cell)}
    (h : m.neighbors t = some l) {a : String} {s : Cell} (hm : (a, s) ∈ l) :
    m.inBounds s.1 s.2 = true ∧ m.wallAt s.1 s.2 = some false ∧ s = applyAction a t := by
  obtain ⟨h1, h2, h3⟩ := neighborsAux_mem (candidates t) l h a s hm
  exact ⟨h2, h3, candidates_mem h1⟩

/-! ### Expansion-loop lemmas -/

@[simp] theorem Node.state_start (s : Cell) : (Node.start s).state = s := rfl

@[simp] theorem Node.state_child (s : Cell) (p : Node) (a : String) :
    (Node.child s p a).state = s := rfl

theorem expand_spec (m : Maze) (node : Node) (ex : List Cell) :
    ∀ (cl : List (String × Cell)) (fr : Frontier) (acc : List Node)
      (fr2 : Frontier) (acc2 : List Node),
      m.expand node ex fr acc cl = some (fr2, acc2) →
      ∃ new : List Node,
        acc2 = acc ++ new ∧
        fr2.nodes.Perm (new ++ fr.nodes) ∧
        (∀ nd ∈ new, ∃ a s, nd = Node.child s node a ∧ (a, s) ∈ cl ∧
          s ∉ ex ∧ s ∉ fr.states) ∧
        (new.map Node.state).Nodup ∧
        fr2.isAstar = fr.isAstar ∧
        (∀ s, fr.gLookup s ≠ none → fr2.gLookup s ≠ none) ∧
        (∀ s v, fr.gLookup s = some v →
          s ∈ new.map Node.state ∨ fr2.gLookup s = some v) ∧
        (fr.isAstar = true → ∀ nd ∈ new, fr2.gLookup nd.state ≠ none) ∧
        (∀ s, fr2.gLookup s ≠ none → fr.gLookup s ≠ none ∨ s ∈ new.map Node.state) := by
  intro cl
  induction cl with
  | nil =>
      intro fr acc fr2 acc2 h
      simp only [Maze.expand, Option.some_inj, Prod.mk.injEq] at h
      obtain ⟨h1, h2⟩ := h
      subst h1
      subst h2
      refine ⟨[], by simp, by simp, by simp, by simp, rfl,
        fun s hs => hs, fun s v hv => Or.inr hv, fun _ nd hnd => absurd hnd (by simp),
        fun s hs => Or.inl hs⟩
  | cons p rest ih =>
      obtain ⟨a, s⟩ := p
      intro fr acc fr2 acc2 h
      simp only [Maze.expand] at h
      by_cases hcond : fr.contains_state s = false ∧ s ∉ ex
      · rw [if_pos hcond] at h
        cases hadd : fr.add (Node.child s node a) with
        | none => rw [hadd] at h; exact absurd h (by simp)
        | some fr' =>
            rw [hadd] at h
            obtain ⟨hnodes, hisA, hgOff, hgNew, hgBack, hgPres⟩ := add_spec hadd
            obtain ⟨new', i1, i2, i3, i4, i5, i6, i7, i8, i9⟩ := ih fr' _ fr2 acc2 h
            have hstates : fr'.states.Perm (s :: fr.states) := by
              have := hnodes.map Node.state
              simpa [Frontier.states] using this
            have hsElem : s ∈ fr'.states := hstates.mem_iff.mpr (by simp)
            have hsubF : ∀ x, x ∈ fr.states → x ∈ fr'.states := by
              intro x hx
              exact hstates.mem_iff.mpr (List.mem_cons_of_mem _ hx)
            refine ⟨Node.child s node a :: new', ?_, ?_, ?_, ?_, ?_, ?_, ?_, ?_, ?_⟩
            · rw [i1, List.append_assoc]
              rfl
            · exact i2.trans ((List.Perm.append_left new' hnodes).trans List.perm_middle)
            · intro nd hnd
              rcases List.mem_cons.mp hnd with hnd' | hnd'
              · exact ⟨a, s, hnd', by simp, hcond.2, contains_false hcond.1⟩
              · obtain ⟨a', s', he, hm, hex, hfr⟩ := i3 nd hnd'
                exact ⟨a', s', he, List.mem_cons_of_mem _ hm, hex,
                  fun hc => hfr (hsubF s' hc)⟩
            · simp only [List.map_cons, Node.state_child]
              refine List.nodup_cons.mpr ⟨?_, i4⟩
              intro hc
              rw [List.mem_map] at hc
              obtain ⟨nd, hnd, hnds⟩ := hc
              obtain ⟨a', s', he, hm, hex, hfr⟩ := i3 nd hnd
              apply hfr
              rw [he] at hnds
              simp only [Node.state_child] at hnds
              rw [hnds]
              exact hsElem
            · exact i5.trans hisA
            · intro x hx
              exact i6 x (hgPres x hx)
            · intro x v hv
              by_cases hxs : x = s
              · subst hxs
                exact Or.inl (by simp)
              · have : fr'.gLookup x = some v := by
                  rw [hgOff x (by simpa using hxs)]
                  exact hv
                rcases i7 x v this with hin | hrem
                · exact Or.inl (List.mem_cons_of_mem _ hin)
                · exact Or.inr hrem
            · intro hA nd hnd
              rcases List.mem_cons.mp hnd with hnd' | hnd'
              · subst hnd'
                simp only [Node.state_child]
                exact i6 s (by simpa using hgNew hA)
              · exact i8 (hisA.symm ▸ hA) nd hnd'
            · intro x hx
              rcases i9 x hx with hx' | hx'
              · rcases hgBack x hx' with hb | hb
                · exact Or.inl hb
                · exact Or.inr (by simp [hb])
              · exact Or.inr (List.mem_cons_of_mem _ hx')
      · rw [if_neg hcond] at h
        obtain ⟨new', i1, i2, i3, i4, i5, i6, i7, i8, i9⟩ := ih fr acc fr2 acc2 h
        refine ⟨new', i1, i2, ?_, i4, i5, i6, i7, i8, i9⟩
        intro nd hnd
        obtain ⟨a', s', he, hm, hex, hfr⟩ := i3 nd hnd
        exact ⟨a', s', he, List.mem_cons_of_mem _ hm, hex, hfr⟩

theorem expand_total (m : Maze) (node : Node) (ex : List Cell) :
    ∀ (cl : List (String × Cell)) (fr : Frontier) (acc : List Node),
      (fr.isAstar = true → fr.gLookup node.state ≠ none) →
      (m.expand node ex fr acc cl).isSome = true := by
  intro cl
  induction cl with
  | nil => intro fr acc _; simp [Maze.expand]
  | cons p rest ih =>
      obtain ⟨a, s⟩ := p
      intro fr acc hkey
      simp only [Maze.expand]
      by_cases hcond : fr.contains_state s = false ∧ s ∉ ex
      · rw [if_pos hcond]
        have haddok : fr.addOK (Node.child s node a) := hkey
        have hsome := add_total fr (Node.child s node a) haddok
        cases hadd : fr.add (Node.child s node a) with
        | none => rw [hadd] at hsome; simp at hsome
        | some fr' =>
            obtain ⟨_, hisA, _, _, _, hgPres⟩ := add_spec hadd
            exact ih fr' (acc ++ [Node.child s node a])
              (fun hA => hgPres node.state (hkey (hisA ▸ hA)))
      · rw [if_neg hcond]
        exact ih fr acc hkey

/-! ### Step lemmas -/

theorem bfalse {b : Bool} (h : ¬ b = true) : b = false := by
  cases b
  · rfl
  · exact absurd rfl h

theorem step_of_empty {m : Maze} {st : SearchSt} {fr : Frontier} (h : fr.empty = true) :
    m.step st fr = some (false, st, fr) := by
  simp [Maze.step, h]

theorem step_eq {m : Maze} {st : SearchSt} {fr : Frontier} {n : Node} {fr1 : Frontier}
    (hne : fr.empty = false) (hrem : fr.remove = some (n, fr1)) :
    m.step st fr =
      if n.state = m.goal then
        some (true, { st with
          num_explored := st.num_explored + 1,
          solution := some (solutionOf n), solution_found := true }, fr1)
      else
        match m.neighbors n.state with
        | none => none
        | some nbrs =>
            match m.expand n (addSet n.state st.explored) fr1 [] nbrs with
            | none => none
            | some (fr2, added) =>
                some (false, { st with
                  num_explored := st.num_explored + 1,
                  explored := addSet n.state st.explored,
                  frontier_nodes := added }, fr2) := by
  unfold Maze.step
  rw [if_neg (by simp [hne]), hrem]

theorem step_true_spec {m : Maze} {st : SearchSt} {fr : Frontier}
    {st' : SearchSt} {fr' : Frontier}
    (h : m.step st fr = some (true, st', fr')) :
    ∃ n fr1, fr.remove = some (n, fr1) ∧ n ∈ fr.nodes ∧ n.state = m.goal ∧
      st' = { st with
        num_explored := st.num_explored + 1,
        solution := some (solutionOf n), solution_found := true } ∧
      fr' = fr1 ∧ fr'.gLookup = fr.gLookup := by
  by_cases hne : fr.empty = true
  · rw [step_of_empty hne] at h
    simp at h
  · have hne' : fr.empty = false := bfalse hne
    obtain ⟨n, fr1, hrem, hperm, hgEq, hisA⟩ := remove_spec fr hne'
    rw [step_eq hne' hrem] at h
    by_cases hg : n.state = m.goal
    · rw [if_pos hg] at h
      simp only [Option.some_inj, Prod.mk.injEq] at h
      obtain ⟨-, hst, hfr⟩ := h
      refine ⟨n, fr1, hrem, hperm.mem_iff.mpr (by simp), hg, hst.symm, hfr.symm, ?_⟩
      rw [← hfr]
      exact hgEq
    · rw [if_neg hg] at h
      cases hnb : m.neighbors n.state with
      | none => simp only [hnb] at h; exact absurd h (by simp)
      | some nbrs =>
          simp only [hnb] at h
          cases hex : m.expand n (addSet n.state st.explored) fr1 [] nbrs with
          | none => simp only [hex] at h; exact absurd h (by simp)
          | some r =>
              obtain ⟨fr2, added⟩ := r
              simp only [hex] at h
              simp at h

theorem step_total {m : Maze} {st : SearchSt} {fr : Frontier}
    (hinv : SInv m st fr) (hre : m.Rect) :
    (m.step st fr).isSome = true := by
  by_cases hne : fr.empty = true
  · rw [step_of_empty hne]
    rfl
  · have hne' : fr.empty = false := bfalse hne
    obtain ⟨n, fr1, hrem, hperm, hgEq, hisA⟩ := remove_spec fr hne'
    rw [step_eq hne' hrem]
    by_cases hg : n.state = m.goal
    · rw [if_pos hg]
      rfl
    · rw [if_neg hg]
      obtain ⟨nbrs, hnb⟩ := neighbors_total hre n.state
      simp only [hnb]
      have hkey : fr1.isAstar = true → fr1.gLookup n.state ≠ none := by
        intro hA
        rw [hgEq]
        exact hinv.keysPres n (hperm.mem_iff.mpr (by simp)) (hisA ▸ hA)
      have htot := expand_total m n (addSet n.state st.explored) nbrs fr1 [] hkey
      cases hex : m.expand n (addSet n.state st.explored) fr1 [] nbrs with
      | none => rw [hex] at htot; simp at htot
      | some r =>
          obtain ⟨fr2, added⟩ := r
          simp only [hex]
          rfl

theorem step_false_spec {m : Maze} {st : SearchSt} {fr : Frontier}
    {st' : SearchSt} {fr' : Frontier}
    (hinv : SInv m st fr) (hne : fr.empty = false)
    (h : m.step st fr = some (false, st', fr')) :
    SInv m st' fr' ∧ st'.explored.length = st.explored.length + 1 ∧
    st'.solution = st.solution ∧
    (∀ s v, fr.gLookup s = some v → fr'.gLookup s = some v) := by
  obtain ⟨n, fr1, hrem, hperm, hgEq, hisA⟩ := remove_spec fr hne
  rw [step_eq hne hrem] at h
  by_cases hg : n.state = m.goal
  · rw [if_pos hg] at h
    simp at h
  · rw [if_neg hg] at h
    cases hnb : m.neighbors n.state with
    | none => simp only [hnb] at h; exact absurd h (by simp)
    | some nbrs =>
        simp only [hnb] at h
        cases hex : m.expand n (addSet n.state st.explored) fr1 [] nbrs with
        | none => simp only [hex] at h; exact absurd h (by simp)
        | some r =>
            obtain ⟨fr2, added⟩ := r
            simp only [hex] at h
            simp only [Option.some_inj, Prod.mk.injEq] at h
            obtain ⟨-, hst, hfr⟩ := h
            subst hfr
            -- basic consequences of the removal
            have hnmem : n ∈ fr.nodes := hperm.mem_iff.mpr (by simp)
            have hstates : fr.states.Perm (n.state :: fr1.states) := by
              simpa [Frontier.states] using hperm.map Node.state
            have hnsF : n.state ∈ fr.states := hstates.mem_iff.mpr (by simp)
            have hndF : (n.state :: fr1.states).Nodup :=
              (hstates.nodup_iff).mp hinv.nodupF
            have hnsNot1 : n.state ∉ fr1.states := (List.nodup_cons.mp hndF).1
            have hnd1 : fr1.states.Nodup := (List.nodup_cons.mp hndF).2
            have hsub1F : ∀ x, x ∈ fr1.states → x ∈ fr.states := fun x hx =>
              hstates.mem_iff.mpr (List.mem_cons_of_mem _ hx)
            have hsub1N : ∀ x, x ∈ fr1.nodes → x ∈ fr.nodes := fun x hx =>
              hperm.mem_iff.mpr (List.mem_cons_of_mem _ hx)
            have hnmemE : n.state ∉ st.explored := hinv.disj n.state hnsF
            have haddSet : addSet n.state st.explored = n.state :: st.explored := by
              simp [addSet, hnmemE]
            obtain ⟨new, e1, e2, e3, e4, e5, e6, e7, e8, e9⟩ :=
              expand_spec m n (addSet n.state st.explored) nbrs fr1 [] fr2 added hex
            have hs2 : fr2.states.Perm (new.map Node.state ++ fr1.states) := by
              have := e2.map Node.state
              simpa [Frontier.states] using this
            have hnewF : ∀ x ∈ new.map Node.state,
                (x ∉ st.explored ∧ x ≠ n.state) ∧ x ∉ fr1.states ∧
                ∃ a, (a, x) ∈ nbrs := by
              intro x hx
              rw [List.mem_map] at hx
              obtain ⟨nd, hnd, hnds⟩ := hx
              obtain ⟨a', s', he, hm, hexx, hfr1⟩ := e3 nd hnd
              rw [he] at hnds
              simp only [Node.state_child] at hnds
              subst hnds
              rw [haddSet] at hexx
              simp only [List.mem_cons, not_or] at hexx
              exact ⟨⟨hexx.2, hexx.1⟩, hfr1, ⟨a', hm⟩⟩
            have hstartA : m.start = n.state ∨ m.start ∈ fr1.states ∨
                m.start ∈ st.explored := by
              rcases hinv.startMem with hsm | hsm
              · rcases List.mem_cons.mp (hstates.mem_iff.mp hsm) with hh | hh
                · exact Or.inl hh
                · exact Or.inr (Or.inl hh)
              · exact Or.inr (Or.inr hsm)
            have hnewNotStart : ∀ x ∈ new.map Node.state, x ≠ m.start := by
              intro x hx hc
              obtain ⟨⟨hxe, hxn⟩, hx1, -⟩ := hnewF x hx
              subst hc
              rcases hstartA with hh | hh | hh
              · exact hxn hh
              · exact hx1 hh
              · exact hxe hh
            have hmemF' : ∀ x, x ∈ fr2.states ↔
                (x ∈ new.map Node.state ∨ x ∈ fr1.states) := by
              intro x
              rw [hs2.mem_iff, List.mem_append]
            refine ⟨?_, ?_, ?_, ?_⟩
            · constructor
              · -- nodupF
                rw [hs2.nodup_iff]
                refine List.Nodup.append e4 hnd1 (List.disjoint_left.mpr ?_)
                intro x hx
                exact (hnewF x hx).2.1
              · -- nodupE
                rw [← hst]
                simp only [haddSet]
                exact List.nodup_cons.mpr ⟨hnmemE, hinv.nodupE⟩
              · -- disj
                intro x hx
                rw [← hst]
                simp only [haddSet, List.mem_cons, not_or]
                rcases (hmemF' x).mp hx with hh | hh
                · obtain ⟨⟨hxe, hxn⟩, -, -⟩ := hnewF x hh
                  exact ⟨hxn, hxe⟩
                · constructor
                  · intro hc
                    exact hnsNot1 (hc ▸ hh)
                  · exact hinv.disj x (hsub1F x hh)
              · -- boundsF
                intro x hx
                rcases (hmemF' x).mp hx with hh | hh
                · obtain ⟨-, -, a', hm⟩ := hnewF x hh
                  obtain ⟨hb, -, -⟩ := neighbors_mem hnb hm
                  exact Or.inl ((mem_boundsL m x.1 x.2).mpr hb)
                · exact hinv.boundsF x (hsub1F x hh)
              · -- boundsE
                intro x hx
                rw [← hst] at hx
                simp only [haddSet, List.mem_cons] at hx
                rcases hx with hh | hh
                · exact hh ▸ hinv.boundsF n.state hnsF
                · exact hinv.boundsE x hh
              · -- startMem
                rcases hstartA with hh | hh | hh
                · right
                  rw [← hst]
                  simp [haddSet, hh]
                · left
                  exact (hmemF' m.start).mpr (Or.inr hh)
                · right
                  rw [← hst]
                  simp [haddSet, hh]
              · -- chains
                intro nd hnd
                rcases List.mem_append.mp (e2.mem_iff.mp hnd) with hh' | hh'
                · obtain ⟨a', s', he, hm, hexx, hfr1⟩ := e3 nd hh'
                  subst he
                  have hvp := (hinv.chains n hnmem).1
                  have hcc := (hinv.chains n hnmem).2
                  refine ⟨ValidChain.link n a' s' nbrs hvp hnb hm, ?_⟩
                  intro c hc
                  rw [chainCells] at hc
                  rcases List.mem_append.mp hc with hc' | hc'
                  · exact hcc c hc'
                  · rw [List.mem_singleton] at hc'
                    subst hc'
                    exact hnewNotStart c (by
                      rw [List.mem_map]
                      exact ⟨Node.child c n a', hh', rfl⟩)
                · exact hinv.chains nd (hsub1N nd hh')
              · -- keysPres
                intro nd hnd hA
                have hA1 : fr1.isAstar = true := by rw [← e5]; exact hA
                rcases List.mem_append.mp (e2.mem_iff.mp hnd) with hh' | hh'
                · exact e8 hA1 nd hh'
                · have := hinv.keysPres nd (hsub1N nd hh') (by rw [← hisA]; exact hA1)
                  rw [← hgEq] at this
                  exact e6 nd.state this
              · -- keysDom
                intro x hx
                rcases e9 x hx with hh | hh
                · rw [hgEq] at hh
                  rcases hinv.keysDom x hh with hd | hd
                  · rcases List.mem_cons.mp (hstates.mem_iff.mp hd) with hd' | hd'
                    · right
                      left
                      rw [← hst]
                      simp [haddSet, hd']
                    · exact Or.inl ((hmemF' x).mpr (Or.inr hd'))
                  · rcases hd with hd | hd
                    · right
                      left
                      rw [← hst]
                      simp [haddSet, hd]
                    · exact Or.inr (Or.inr hd)
                · exact Or.inl ((hmemF' x).mpr (Or.inl hh))
            · rw [← hst]
              simp [haddSet]
            · rw [← hst]
            · intro x v hv
              have hv1 : fr1.gLookup x = some v := by rw [hgEq]; exact hv
              rcases e7 x v hv1 with hh | hh
              · exfalso
                obtain ⟨⟨hxe, hxn⟩, hx1, -⟩ := hnewF x hh
                have : fr.gLookup x ≠ none := by rw [hv]; simp
                rcases hinv.keysDom x this with hd | hd
                · rcases List.mem_cons.mp (hstates.mem_iff.mp hd) with hd' | hd'
                  · exact hxn hd'
                  · exact hx1 hd'
                · rcases hd with hd | hd
                  · exact hxe hd
                  · subst hd
                    rcases hstartA with hh' | hh' | hh'
                    · exact hxn hh'
                    · exact hx1 hh'
                    · exact hxe hh'
              · exact hh

/-! ### Loop lemmas: counting, termination, initialization -/

theorem sinv_cap {m : Maze} {st : SearchSt} {fr : Frontier} (hinv : SInv m st fr) :
    st.explored.length + fr.states.length ≤ m.height * m.width + 1 := by
  have hnodup : (fr.states ++ st.explored).Nodup :=
    List.Nodup.append hinv.nodupF hinv.nodupE (List.disjoint_left.mpr hinv.disj)
  have hsub : (fr.states ++ st.explored) ⊆ (boundsL m ++ [m.start]) := by
    intro x hx
    rcases List.mem_append.mp hx with hx' | hx'
    · rcases hinv.boundsF x hx' with h | h
      · exact List.mem_append.mpr (Or.inl h)
      · exact List.mem_append.mpr (Or.inr (by simp [h]))
    · rcases hinv.boundsE x hx' with h | h
      · exact List.mem_append.mpr (Or.inl h)
      · exact List.mem_append.mpr (Or.inr (by simp [h]))
  have hle := (hnodup.subperm hsub).length_le
  rw [List.length_append, List.length_append, length_boundsL] at hle
  simp only [List.length_singleton] at hle
  omega

theorem sinv_ghost {m : Maze} {st st2 : SearchSt} {fr : Frontier}
    (h : SInv m st fr) (he : st2.explored = st.explored) : SInv m st2 fr := by
  refine ⟨h.nodupF, ?_, ?_, h.boundsF, ?_, ?_, h.chains, h.keysPres, ?_⟩
  · rw [he]; exact h.nodupE
  · intro s hs; rw [he]; exact h.disj s hs
  · intro s hs; rw [he] at hs; exact h.boundsE s hs
  · rcases h.startMem with hh | hh
    · exact Or.inl hh
    · right; rw [he]; exact hh
  · intro s hs
    rcases h.keysDom s hs with a | a | a
    · exact Or.inl a
    · right; left; rw [he]; exact a
    · exact Or.inr (Or.inr a)

theorem runF_succ (m : Maze) (fuel : Nat) (st : SearchSt) (fr : Frontier) :
    m.runF (fuel + 1) st fr =
      match m.step st fr with
      | none => none
      | some (true, st', fr') => some (some true, st', fr')
      | some (false, st', fr') =>
          if fr'.empty then some (some false, st', fr') else m.runF fuel st' fr' := by
  rfl

theorem runF_step_none {m : Maze} {fuel : Nat} {st : SearchSt} {fr : Frontier}
    (h : m.step st fr = none) : m.runF (fuel + 1) st fr = none := by
  rw [runF_succ, h]

theorem runF_step_true {m : Maze} {fuel : Nat} {st : SearchSt} {fr : Frontier}
    {st' : SearchSt} {fr' : Frontier} (h : m.step st fr = some (true, st', fr')) :
    m.runF (fuel + 1) st fr = some (some true, st', fr') := by
  rw [runF_succ, h]

theorem runF_step_false {m : Maze} {fuel : Nat} {st : SearchSt} {fr : Frontier}
    {st' : SearchSt} {fr' : Frontier} (h : m.step st fr = some (false, st', fr')) :
    m.runF (fuel + 1) st fr =
      if fr'.empty then some (some false, st', fr') else m.runF fuel st' fr' := by
  rw [runF_succ, h]

theorem runF_definitive {m : Maze} :
    ∀ (fuel : Nat) (st : SearchSt) (fr : Frontier), SInv m st fr →
      m.height * m.width + 2 ≤ fuel + st.explored.length →
      definitive (m.runF fuel st fr) = true := by
  intro fuel
  induction fuel with
  | zero =>
      intro st fr hinv hf
      exfalso
      have hcap := sinv_cap hinv
      omega
  | succ fuel ih =>
      intro st fr hinv hf
      cases hs : m.step st fr with
      | none => rw [runF_step_none hs]; rfl
      | some r =>
          obtain ⟨b, st', fr'⟩ := r
          cases b with
          | true => rw [runF_step_true hs]; rfl
          | false =>
              rw [runF_step_false hs]
              by_cases hemp : fr'.empty = true
              · rw [if_pos hemp]; rfl
              · rw [if_neg (by simp [bfalse hemp])]
                by_cases hfe : fr.empty = true
                · exfalso
                  rw [step_of_empty hfe] at hs
                  simp only [Option.some_inj, Prod.mk.injEq] at hs
                  obtain ⟨-, -, h2⟩ := hs
                  rw [← h2] at hemp
                  exact hemp hfe
                · obtain ⟨hinv', hlen, -, -⟩ := step_false_spec hinv (bfalse hfe) hs
                  exact ih st' fr' hinv' (by omega)

theorem step_false_solution {m : Maze} {st : SearchSt} {fr : Frontier}
    {st' : SearchSt} {fr' : Frontier}
    (h : m.step st fr = some (false, st', fr')) : st'.solution = st.solution := by
  by_cases hfe : fr.empty = true
  · rw [step_of_empty hfe] at h
    simp only [Option.some_inj, Prod.mk.injEq] at h
    obtain ⟨-, h1, -⟩ := h
    rw [← h1]
  · have hne := bfalse hfe
    obtain ⟨n, fr1, hrem, -, -, -⟩ := remove_spec fr hne
    rw [step_eq hne hrem] at h
    by_cases hg : n.state = m.goal
    · rw [if_pos hg] at h
      simp at h
    · rw [if_neg hg] at h
      cases hnb : m.neighbors n.state with
      | none => simp only [hnb] at h; exact absurd h (by simp)
      | some nbrs =>
          simp only [hnb] at h
          cases hex : m.expand n (addSet n.state st.explored) fr1 [] nbrs with
          | none => simp only [hex] at h; exact absurd h (by simp)
          | some r =>
              obtain ⟨fr2, added⟩ := r
              simp only [hex, Option.some_inj, Prod.mk.injEq] at h
              obtain ⟨-, h1, -⟩ := h
              rw [← h1]

theorem runF_false_spec {m : Maze} :
    ∀ (fuel : Nat) (st : SearchSt) (fr : Frontier) (st' : SearchSt) (fr' : Frontier),
      m.runF fuel st fr = some (some false, st', fr') →
      st'.solution = st.solution ∧ fr'.empty = true := by
  intro fuel
  induction fuel with
  | zero =>
      intro st fr st' fr' h
      rw [Maze.runF] at h
      simp at h
  | succ fuel ih =>
      intro st fr st' fr' h
      cases hs : m.step st fr with
      | none => rw [runF_step_none hs] at h; exact absurd h (by simp)
      | some r =>
          obtain ⟨b, st1, fr1⟩ := r
          cases b with
          | true => rw [runF_step_true hs] at h; simp at h
          | false =>
              rw [runF_step_false hs] at h
              by_cases hemp : fr1.empty = true
              · rw [if_pos hemp] at h
                simp only [Option.some_inj, Prod.mk.injEq] at h
                obtain ⟨-, h1, h2⟩ := h
                subst h1
                subst h2
                exact ⟨step_false_solution hs, hemp⟩
              · rw [if_neg (by simp [bfalse hemp])] at h
                obtain ⟨hsol, hend⟩ := ih st1 fr1 st' fr' h
                exact ⟨hsol.trans (step_false_solution hs), hend⟩

theorem runF_true_chain {m : Maze} :
    ∀ (fuel : Nat) (st : SearchSt) (fr : Frontier) (st' : SearchSt) (fr' : Frontier),
      SInv m st fr →
      m.runF fuel st fr = some (some true, st', fr') →
      ∃ n, ValidChain m n ∧ (∀ c ∈ chainCells n, c ≠ m.start) ∧
        n.state = m.goal ∧ st'.solution = some (solutionOf n) := by
  intro fuel
  induction fuel with
  | zero =>
      intro st fr st' fr' _ h
      rw [Maze.runF] at h
      simp at h
  | succ fuel ih =>
      intro st fr st' fr' hinv h
      cases hs : m.step st fr with
      | none => rw [runF_step_none hs] at h; exact absurd h (by simp)
      | some r =>
          obtain ⟨b, st1, fr1⟩ := r
          cases b with
          | true =>
              rw [runF_step_true hs] at h
              simp only [Option.some_inj, Prod.mk.injEq] at h
              obtain ⟨-, h1, -⟩ := h
              subst h1
              obtain ⟨n, fr2, hrem, hmem, hgoal, hst1, -, -⟩ := step_true_spec hs
              refine ⟨n, (hinv.chains n hmem).1, (hinv.chains n hmem).2, hgoal, ?_⟩
              rw [hst1]
          | false =>
              rw [runF_step_false hs] at h
              by_cases hemp : fr1.empty = true
              · rw [if_pos hemp] at h
                simp at h
              · rw [if_neg (by simp [bfalse hemp])] at h
                by_cases hfe : fr.empty = true
                · exfalso
                  rw [step_of_empty hfe] at hs
                  simp only [Option.some_inj, Prod.mk.injEq] at hs
                  obtain ⟨-, -, h2⟩ := hs
                  rw [← h2] at hemp
                  exact hemp hfe
                · obtain ⟨hinv', -, -, -⟩ := step_false_spec hinv (bfalse hfe) hs
                  exact ih st1 fr1 st' fr' hinv' h

theorem init_add {m : Maze} (strat : Strategy) :
    ∃ fr1, (initFrontier strat m).add (.start m.start) = some fr1 ∧
      fr1.nodes = [Node.start m.start] ∧
      (fr1.isAstar = true → fr1.gLookup m.start ≠ none) ∧
      (∀ s, fr1.gLookup s ≠ none → s = m.start) := by
  cases strat with
  | dfs =>
      refine ⟨.stack [Node.start m.start], rfl, rfl, ?_, ?_⟩
      · intro h
        simp [Frontier.isAstar] at h
      · intro s hs
        simp [Frontier.gLookup] at hs
  | bfs =>
      refine ⟨.queue [Node.start m.start], rfl, rfl, ?_, ?_⟩
      · intro h
        simp [Frontier.isAstar] at h
      · intro s hs
        simp [Frontier.gLookup] at hs
  | greedy =>
      refine ⟨.greedy m.goal [(manhattan m.start m.goal, Node.start m.start)],
        rfl, rfl, ?_, ?_⟩
      · intro h
        simp [Frontier.isAstar] at h
      · intro s hs
        simp [Frontier.gLookup] at hs
  | astar =>
      refine ⟨.astar m.start m.goal
        (dictInsert m.start 0 (dictInsert m.start 0 []))
        [(0 + manhattan m.start m.goal, Node.start m.start)], rfl, rfl, ?_, ?_⟩
      · intro _
        simp [Frontier.gLookup, dictInsert, alookup]
      · intro s hs
        by_cases hsm : s = m.start
        · exact hsm
        · exfalso
          apply hs
          simp [Frontier.gLookup, dictInsert, alookup, hsm]

theorem sinv_single {m : Maze} {st : SearchSt} {fr1 : Frontier}
    (hex : st.explored = [])
    (hnodes : fr1.nodes = [Node.start m.start])
    (hkeys : fr1.isAstar = true → fr1.gLookup m.start ≠ none)
    (hdom : ∀ s, fr1.gLookup s ≠ none → s = m.start) :
    SInv m st fr1 := by
  have hstates : fr1.states = [m.start] := by simp [Frontier.states, hnodes]
  constructor
  · rw [hstates]
    exact List.nodup_singleton _
  · rw [hex]
    exact List.nodup_nil
  · intro s _
    rw [hex]
    simp
  · intro s hs
    rw [hstates, List.mem_singleton] at hs
    exact Or.inr hs
  · intro s hs
    rw [hex] at hs
    simp at hs
  · left
    rw [hstates]
    simp
  · intro nd hnd
    rw [hnodes, List.mem_singleton] at hnd
    subst hnd
    exact ⟨ValidChain.root, by simp [chainCells]⟩
  · intro nd hnd hA
    rw [hnodes, List.mem_singleton] at hnd
    subst hnd
    rw [Node.state_start]
    exact hkeys hA
  · intro s hs
    exact Or.inr (Or.inr (hdom s hs))

theorem solveF_init {m : Maze} (strat : Strategy) :
    ∃ fr1, m.solveF (initFrontier strat m) = some (stInit, fr1) ∧
      SInv m stInit fr1 := by
  obtain ⟨fr1, hadd, hnodes, hkeys, hdom⟩ := init_add strat
  refine ⟨fr1, ?_, sinv_single rfl hnodes hkeys hdom⟩
  unfold Maze.solveF
  rw [hadd]
  rfl

/-! ### The `laberinto.py` loop body related to the `laberintoFinal.py` one -/

theorem stepL_eq' {m : Maze} {st : SearchSt} {fr : Frontier} {n : Node} {fr1 : Frontier}
    (hne : fr.empty = false) (hrem : fr.remove = some (n, fr1)) :
    m.stepL st fr =
      if n.state = m.goal then
        some (true, { st with
          num_explored := st.num_explored + 1,
          solution := some (solutionOf n) }, fr1)
      else
        match m.neighbors n.state with
        | none => none
        | some nbrs =>
            match m.expand n (addSet n.state st.explored) fr1 [] nbrs with
            | none => none
            | some (fr2, _) =>
                some (false, { st with
                  num_explored := st.num_explored + 1,
                  explored := addSet n.state st.explored }, fr2) := by
  unfold Maze.stepL
  rw [if_neg (by simp [hne]), hrem]

theorem stepL_eq {m : Maze} {st : SearchSt} {fr : Frontier} :
    m.stepL st fr = (m.step st fr).map
      (fun r => (r.1, { r.2.1 with
        solution_found := st.solution_found,
        frontier_nodes := st.frontier_nodes }, r.2.2)) := by
  by_cases hfe : fr.empty = true
  · rw [step_of_empty hfe]
    unfold Maze.stepL
    rw [if_pos hfe]
    rfl
  · have hne := bfalse hfe
    cases hrm : fr.remove with
    | none =>
        unfold Maze.stepL Maze.step
        rw [if_neg (by simp [hne]), if_neg (by simp [hne]), hrm]
        rfl
    | some p =>
        obtain ⟨n, fr1⟩ := p
        rw [step_eq hne hrm, stepL_eq' hne hrm]
        by_cases hg : n.state = m.goal
        · rw [if_pos hg, if_pos hg]
          rfl
        · rw [if_neg hg, if_neg hg]
          split
          · rfl
          · split
            · rfl
            · rfl

theorem stepL_of_step {m : Maze} {st : SearchSt} {fr : Frontier} {b : Bool}
    {st'' : SearchSt} {fr' : Frontier} (hs : m.step st fr = some (b, st'', fr')) :
    m.stepL st fr = some (b, { st'' with
      solution_found := st.solution_found,
      frontier_nodes := st.frontier_nodes }, fr') := by
  rw [stepL_eq, hs]
  rfl

theorem solveLoopL_succ (m : Maze) (fuel : Nat) (st : SearchSt) (fr : Frontier) :
    m.solveLoopL (fuel + 1) st fr =
      if fr.empty then some (some false, st, fr)
      else
        match m.stepL st fr with
        | none => none
        | some (true, st', fr') => some (some true, st', fr')
        | some (false, st', fr') => m.solveLoopL fuel st' fr' := by
  rfl

theorem solveLoopL_spec {m : Maze} (hre : m.Rect) :
    ∀ (fuel : Nat) (st : SearchSt) (fr : Frontier), SInv m st fr →
      m.height * m.width + 2 ≤ fuel + st.explored.length →
      ∃ b st' fr', m.solveLoopL fuel st fr = some (some b, st', fr') ∧
        (b = false → fr'.empty = true ∧ st'.solution = st.solution) ∧
        (b = true → ∃ p, st'.solution = some p) := by
  intro fuel
  induction fuel with
  | zero =>
      intro st fr hinv hf
      exfalso
      have hcap := sinv_cap hinv
      omega
  | succ fuel ih =>
      intro st fr hinv hf
      rw [solveLoopL_succ]
      by_cases hfe : fr.empty = true
      · rw [if_pos hfe]
        exact ⟨false, st, fr, rfl, fun _ => ⟨hfe, rfl⟩, by simp⟩
      · rw [if_neg (by simp [bfalse hfe])]
        have hne := bfalse hfe
        have hstot := step_total hinv hre
        cases hs : m.step st fr with
        | none => rw [hs] at hstot; simp at hstot
        | some r =>
            obtain ⟨b, st'', fr''⟩ := r
            have hsL := stepL_of_step hs
            rw [hsL]
            cases b with
            | true =>
                obtain ⟨n, fr2, hrem, hmem, hgoal, hst'', -, -⟩ := step_true_spec hs
                refine ⟨true, _, fr'', rfl, by simp, ?_⟩
                intro _
                refine ⟨solutionOf n, ?_⟩
                show st''.solution = some (solutionOf n)
                rw [hst'']
            | false =>
                obtain ⟨hinv'', hlen, hsol, -⟩ := step_false_spec hinv hne hs
                have hinvL : SInv m { st'' with
                    solution_found := st.solution_found,
                    frontier_nodes := st.frontier_nodes } fr'' :=
                  sinv_ghost hinv'' rfl
                obtain ⟨b', st', fr', hrun, hbf, hbt⟩ := ih _ fr'' hinvL (by
                  have hge : ({ st'' with
                      solution_found := st.solution_found,
                      frontier_nodes := st.frontier_nodes } : SearchSt).explored.length
                      = st''.explored.length := rfl
                  omega)
                refine ⟨b', st', fr', hrun, ?_, hbt⟩
                intro hb
                obtain ⟨hfe', hsol'⟩ := hbf hb
                refine ⟨hfe', ?_⟩
                rw [hsol']
                show st''.solution = st.solution
                exact hsol

/-! ### Solution-chain lemmas -/

theorem collectRev_spec (n : Node) :
    (collectRev n).1.reverse = chainActs n ∧ (collectRev n).2.reverse = chainCells n := by
  induction n with
  | start s => exact ⟨rfl, rfl⟩
  | child s p a ih =>
      constructor
      · show (a :: (collectRev p).1).reverse = chainActs p ++ [a]
        rw [List.reverse_cons, ih.1]
      · show (s :: (collectRev p).2).reverse = chainCells p ++ [s]
        rw [List.reverse_cons, ih.2]

theorem solutionOf_eq (n : Node) : solutionOf n = (chainActs n, chainCells n) := by
  unfold solutionOf
  rw [(collectRev_spec n).1, (collectRev_spec n).2]

theorem chain_lengths (n : Node) : (chainActs n).length = (chainCells n).length := by
  induction n with
  | start s => rfl
  | child s p a ih => simp [chainActs, chainCells, ih]

theorem walk_append {s t : Cell} {acts : List String}
    (h : (s :: walk s acts).getLast? = some t) (a : String) :
    walk s (acts ++ [a]) = walk s acts ++ [applyAction a t] := by
  induction acts generalizing s with
  | nil =>
      simp only [walk, List.getLast?_singleton, Option.some_inj] at h
      subst h
      rfl
  | cons b acts' ih =>
      have h' : ((applyAction b s) :: walk (applyAction b s) acts').getLast? = some t := by
        simp only [walk] at h
        rw [List.getLast?_cons_cons] at h
        exact h
      show applyAction b s :: walk (applyAction b s) (acts' ++ [a]) =
        (applyAction b s :: walk (applyAction b s) acts') ++ [applyAction a t]
      rw [List.cons_append, ih h']

theorem chain_walk {m : Maze} : ∀ {n : Node}, ValidChain m n →
    walk m.start (chainActs n) = chainCells n ∧
    (m.start :: chainCells n).getLast? = some n.state := by
  intro n hv
  induction hv with
  | root => exact ⟨rfl, rfl⟩
  | link p a s l hvp hnb hm ih =>
      obtain ⟨ihw, ihl⟩ := ih
      obtain ⟨-, -, hs⟩ := neighbors_mem hnb hm
      constructor
      · show walk m.start (chainActs p ++ [a]) = chainCells p ++ [s]
        have hlast : (m.start :: walk m.start (chainActs p)).getLast? = some p.state := by
          rw [ihw]
          exact ihl
        rw [walk_append hlast a, ihw, ← hs]
      · show (m.start :: (chainCells p ++ [s])).getLast? = some s
        rw [← List.cons_append]
        exact List.getLast?_concat _

theorem chain_cells_valid {m : Maze} : ∀ {n : Node}, ValidChain m n →
    ∀ c ∈ chainCells n, m.inBounds c.1 c.2 = true ∧ m.wallAt c.1 c.2 = some false := by
  intro n hv
  induction hv with
  | root => intro c hc; simp [chainCells] at hc
  | link p a s l hvp hnb hm ih =>
      intro c hc
      rw [show chainCells (Node.child s p a) = chainCells p ++ [s] from rfl] at hc
      rcases List.mem_append.mp hc with hc' | hc'
      · exact ih c hc'
      · rw [List.mem_singleton] at hc'
        subst hc'
        obtain ⟨h1, h2, -⟩ := neighbors_mem hnb hm
        exact ⟨h1, h2⟩

/-! ### Keyed-frontier removal order -/

theorem greedy_add_sorted {goal : Cell} {es : List (Nat × Node)}
    (hs : KeySorted es) (n : Node) :
    (Frontier.greedy goal es).add n =
      some (.greedy goal (insertTail (manhattan n.state goal, n) es)) := by
  have hstep : (Frontier.greedy goal es).add n =
      some (.greedy goal (pySort (es ++ [(manhattan n.state goal, n)]))) := rfl
  rw [hstep, pySort_sorted_append _ es hs]

theorem greedy_addAll :
    ∀ (ns : List Node) (goal : Cell) (es : List (Nat × Node)), KeySorted es →
      Frontier.addAll (.greedy goal es) ns =
        some (.greedy goal ((ns.map (fun n => (manhattan n.state goal, n))).foldl
          (fun acc p => insertTail p acc) es)) ∧
      KeySorted ((ns.map (fun n => (manhattan n.state goal, n))).foldl
          (fun acc p => insertTail p acc) es) := by
  intro ns
  induction ns with
  | nil => intro goal es hs; exact ⟨rfl, hs⟩
  | cons n rest ih =>
      intro goal es hs
      obtain ⟨ih1, ih2⟩ := ih goal (insertTail (manhattan n.state goal, n) es)
        (insertTail_sorted _ es hs)
      constructor
      · rw [addAll_cons, greedy_add_sorted hs n]
        exact ih1
      · exact ih2

theorem astar_add_sorted {stc goal : Cell} {gc : List (Cell × Nat)}
    {es : List (Nat × Node)} (hs : KeySorted es) {n : Node} {g : Nat}
    (hg : astarG gc n = some g) :
    (Frontier.astar stc goal gc es).add n =
      some (.astar stc goal (dictInsert n.state g gc)
        (insertTail (g + manhattan n.state goal, n) es)) := by
  simp only [Frontier.add, hg]
  rw [pySort_sorted_append _ es hs]

theorem astar_add_fail {stc goal : Cell} {gc : List (Cell × Nat)}
    {es : List (Nat × Node)} {n : Node} (hg : astarG gc n = none) :
    (Frontier.astar stc goal gc es).add n = none := by
  simp only [Frontier.add, hg]

theorem astar_addAll :
    ∀ (ns : List Node) (stc goal : Cell) (gc : List (Cell × Nat))
      (es : List (Nat × Node)), KeySorted es →
      ∀ F, Frontier.addAll (.astar stc goal gc es) ns = some F →
      ∃ ks gc', specAStarKeys goal gc ns = some ks ∧
        F = .astar stc goal gc'
          ((ks.zip ns).foldl (fun acc p => insertTail p acc) es) ∧
        KeySorted ((ks.zip ns).foldl (fun acc p => insertTail p acc) es) := by
  intro ns
  induction ns with
  | nil =>
      intro stc goal gc es hs F hF
      simp only [Frontier.addAll, List.foldl_nil, Option.some_inj] at hF
      exact ⟨[], gc, rfl, hF.symm, hs⟩
  | cons n rest ih =>
      intro stc goal gc es hs F hF
      rw [addAll_cons] at hF
      cases hg : astarG gc n with
      | none =>
          rw [astar_add_fail hg] at hF
          simp at hF
      | some g =>
          rw [astar_add_sorted hs hg] at hF
          simp only [Option.some_bind] at hF
          obtain ⟨ks', gc', hspec, hFeq, hsort⟩ := ih stc goal
            (dictInsert n.state g gc) (insertTail (g + manhattan n.state goal, n) es)
            (insertTail_sorted _ es hs) F hF
          refine ⟨(g + manhattan n.state goal) :: ks', gc', ?_, hFeq, hsort⟩
          simp only [specAStarKeys, hg, hspec, Option.map_some']

theorem zip_fold_head (p0 : Nat × Node) (ps : List (Nat × Node)) :
    ∃ tl, ((p0 :: ps).foldl (fun acc p => insertTail p acc) []) =
      specFirstMinPair p0 ps :: tl := by
  have h := foldl_insertTail_head ps [p0] p0 (by simp [KeySorted]) rfl
  obtain ⟨-, hh⟩ := h
  cases hL : ps.foldl (fun acc p => insertTail p acc) [p0] with
  | nil => rw [hL] at hh; simp at hh
  | cons q tl =>
      rw [hL] at hh
      simp only [List.head?_cons, Option.some_inj] at hh
      exact ⟨tl, by rw [← hh]; exact hL⟩

theorem keyed_fold_head (f : Node → Nat) (n : Node) (ns : List Node) :
    ∃ tl, (((n :: ns).map (fun x => (f x, x))).foldl
        (fun acc p => insertTail p acc) []) =
      (f (specFirstMinNode f n ns), specFirstMinNode f n ns) :: tl := by
  obtain ⟨tl, htl⟩ := zip_fold_head (f n, n) (ns.map (fun x => (f x, x)))
  rw [specFirstMinPair_map] at htl
  exact ⟨tl, htl⟩

/-! ### Remaining auxiliary lemmas -/

theorem remove_some_nonempty {fr : Frontier} {x : Node × Frontier}
    (h : fr.remove = some x) : fr.empty = false := by
  by_cases hfe : fr.empty = true
  · exfalso
    have : fr.remove = none := by
      cases fr with
      | stack ns =>
          have : ns = [] := by simpa [Frontier.empty, List.isEmpty_iff] using hfe
          subst this
          rfl
      | queue ns =>
          have : ns = [] := by simpa [Frontier.empty, List.isEmpty_iff] using hfe
          subst this
          rfl
      | greedy goal es =>
          have : es = [] := by simpa [Frontier.empty, List.isEmpty_iff] using hfe
          subst this
          rfl
      | astar stc goal gc es =>
          have : es = [] := by simpa [Frontier.empty, List.isEmpty_iff] using hfe
          subst this
          rfl
    rw [this] at h
    exact absurd h (by simp)
  · exact bfalse hfe

theorem stepL_false_solution {m : Maze} {st : SearchSt} {fr : Frontier}
    {st' : SearchSt} {fr' : Frontier}
    (h : m.stepL st fr = some (false, st', fr')) : st'.solution = st.solution := by
  rw [stepL_eq] at h
  cases hs : m.step st fr with
  | none => rw [hs] at h; simp at h
  | some r =>
      obtain ⟨b, st'', fr''⟩ := r
      rw [hs] at h
      simp only [Option.map_some', Option.some_inj, Prod.mk.injEq] at h
      obtain ⟨hb, hst, -⟩ := h
      subst hb
      rw [← hst]
      show st''.solution = st.solution
      exact step_false_solution hs

theorem solveLoopL_false_sol {m : Maze} :
    ∀ (fuel : Nat) (st : SearchSt) (fr : Frontier) (st' : SearchSt) (fr' : Frontier),
      m.solveLoopL fuel st fr = some (some false, st', fr') →
      st'.solution = st.solution := by
  intro fuel
  induction fuel with
  | zero =>
      intro st fr st' fr' h
      rw [Maze.solveLoopL] at h
      simp at h
  | succ fuel ih =>
      intro st fr st' fr' h
      rw [solveLoopL_succ] at h
      by_cases hfe : fr.empty = true
      · rw [if_pos hfe] at h
        simp only [Option.some_inj, Prod.mk.injEq] at h
        obtain ⟨-, h1, -⟩ := h
        rw [← h1]
      · rw [if_neg (by simp [bfalse hfe])] at h
        cases hsl : m.stepL st fr with
        | none => rw [hsl] at h; exact absurd h (by simp)
        | some r =>
            obtain ⟨b, st1, fr1⟩ := r
            rw [hsl] at h
            cases b with
            | true => simp at h
            | false =>
                have := ih st1 fr1 st' fr' h
                rw [this]
                exact stepL_false_solution hsl

theorem reach_sinv {m : Maze} {strat : Strategy} {st : SearchSt} {fr : Frontier}
    (h : m.Reach strat st fr) : SInv m st fr := by
  induction h with
  | init st fr h0 =>
      obtain ⟨fr1, hs, hinv⟩ := solveF_init strat
      rw [h0] at hs
      simp only [Option.some_inj, Prod.mk.injEq] at hs
      obtain ⟨h1, h2⟩ := hs
      rw [← h1, ← h2] at hinv
      exact hinv
  | next st fr st' fr' hr hstep ih =>
      by_cases hfe : fr.empty = true
      · rw [step_of_empty hfe] at hstep
        simp only [Option.some_inj, Prod.mk.injEq] at hstep
        obtain ⟨-, h1, h2⟩ := hstep
        rw [← h1, ← h2]
        exact ih
      · exact (step_false_spec ih (bfalse hfe) hstep).1

/-! ### Claim theorems -/

/-- Claim C8: maze construction from a text fails with an error unless the
start marker `A` and the goal marker `B` each occur exactly once across the
whole text; in particular a text containing two start markers raises the
error and produces no `Maze` instance. -/
theorem c8_validation :
    (∀ lines : List (List Char),
      ¬ (countChar 'A' lines = 1 ∧ countChar 'B' lines = 1) →
      ∃ e, mkMaze lines = Except.error e) ∧
    mkMaze (linesOf ["AA", "B"]) =
      Except.error "maze must have exactly one start point and one goal" := by
  constructor
  · intro lines h
    unfold mkMaze
    rw [if_neg h]
    exact ⟨_, rfl⟩
  · rfl

/-- Witness for C8 at the two-start-marker text. -/
theorem c8_witness : ∃ e, mkMaze (linesOf ["AA", "B"]) = Except.error e :=
  c8_validation.1 (linesOf ["AA", "B"]) (by decide)

/-- Claim C9: for any finite maze and any of the four strategies, the
search terminates: with fuel `height * width + 2` the run reaches a
definitive outcome (success, exhaustion of the frontier, or a raised
exception) rather than running out of fuel, because every state enters the
frontier at most once. -/
theorem c9_termination (m : Maze) (strat : Strategy) :
    definitive (m.runSearch strat (m.height * m.width + 2)) = true := by
  obtain ⟨fr1, hsolve, hinv⟩ := solveF_init strat
  unfold Maze.runSearch
  rw [hsolve]
  exact runF_definitive _ stInit fr1 hinv (Nat.le_add_right _ _)

/-- Claim C4: for each of the four frontier strategies, `remove()` on an
empty frontier raises an error (no sentinel value), and after `add(n)` on
an empty frontier followed by `remove()`, the returned node equals `n` and
the frontier is empty. -/
theorem c4_frontier_contract :
    (Frontier.remove (.stack []) = none) ∧
    (Frontier.remove (.queue []) = none) ∧
    (∀ goal, Frontier.remove (.greedy goal []) = none) ∧
    (∀ stc goal gc, Frontier.remove (.astar stc goal gc []) = none) ∧
    (∀ n fr', (Frontier.stack []).add n = some fr' →
      ∃ fr'', fr'.remove = some (n, fr'') ∧ fr''.empty = true) ∧
    (∀ n fr', (Frontier.queue []).add n = some fr' →
      ∃ fr'', fr'.remove = some (n, fr'') ∧ fr''.empty = true) ∧
    (∀ goal n fr', (Frontier.greedy goal []).add n = some fr' →
      ∃ fr'', fr'.remove = some (n, fr'') ∧ fr''.empty = true) ∧
    (∀ stc goal gc n fr', (Frontier.astar stc goal gc []).add n = some fr' →
      ∃ fr'', fr'.remove = some (n, fr'') ∧ fr''.empty = true) := by
  refine ⟨rfl, rfl, fun _ => rfl, fun _ _ _ => rfl, ?_, ?_, ?_, ?_⟩
  · intro n fr' h
    simp only [Frontier.add, Option.some_inj] at h
    subst h
    exact ⟨.stack [], rfl, rfl⟩
  · intro n fr' h
    simp only [Frontier.add, Option.some_inj] at h
    subst h
    exact ⟨.queue [], rfl, rfl⟩
  · intro goal n fr' h
    simp only [Frontier.add, Option.some_inj] at h
    subst h
    exact ⟨.greedy goal [], rfl, rfl⟩
  · intro stc goal gc n fr' h
    cases hg : astarG gc n with
    | none => rw [astar_add_fail hg] at h; exact absurd h (by simp)
    | some g =>
        rw [astar_add_sorted (by simp [KeySorted]) hg] at h
        simp only [Option.some_inj] at h
        subst h
        exact ⟨.astar stc goal (dictInsert n.state g gc) [], rfl, rfl⟩

/-- Witness for C4: the add-then-remove round trip on concrete frontiers. -/
theorem c4_witness :
    (∃ fr'', (Frontier.stack [Node.start (0, 0)]).remove =
      some (Node.start (0, 0), fr'') ∧ fr''.empty = true) ∧
    (∃ fr'', (Frontier.astar (0, 0) (0, 0) [((1, 1), 0)]
        [(2, Node.start (1, 1))]).remove =
      some (Node.start (1, 1), fr'') ∧ fr''.empty = true) := by
  constructor
  · exact c4_frontier_contract.2.2.2.2.1 (Node.start (0, 0))
      (.stack [Node.start (0, 0)]) (by decide)
  · exact c4_frontier_contract.2.2.2.2.2.2.2 (0, 0) (0, 0) [] (Node.start (1, 1))
      (.astar (0, 0) (0, 0) [((1, 1), 0)] [(2, Node.start (1, 1))]) (by decide)

/-- Claim C2 counterexample: the maze text with rows `#A` and `B` is valid
(one `A`, one `B`) and its rows have differing lengths; `neighbors (0, 1)`
then raises an IndexError (modelled as `none`) at the wall lookup
`walls[1][1]`, instead of treating the short-row cell as out-of-bounds. -/
theorem c2_counterexample :
    mkMaze (linesOf ["#A", "B"]) = Except.ok mazeRag ∧
    mazeRag.neighbors (0, 1) = none := ⟨rfl, by decide⟩

/-- Claim C2 (amended): for every maze constructed from valid text and
every cell, whenever `neighbors(cell)` returns a list, that list contains
only cells inside the bounds that are not walls; but a candidate cell
beyond a short row's length raises an IndexError rather than being treated
as out-of-bounds — when every row has full width, `neighbors` always
returns. -/
theorem c2_neighbors_safe :
    ∀ (lines : List (List Char)) (m : Maze), mkMaze lines = Except.ok m →
      (∀ s l, m.neighbors s = some l → ∀ a c, (a, c) ∈ l →
        m.inBounds c.1 c.2 = true ∧ m.wallAt c.1 c.2 = some false) ∧
      (m.Rect → ∀ s, ∃ l, m.neighbors s = some l) := by
  intro lines m _
  constructor
  · intro s l hl a c hm
    obtain ⟨h1, h2, -⟩ := neighbors_mem hl hm
    exact ⟨h1, h2⟩
  · intro hre s
    exact neighbors_total hre s

/-- Witness for C2 on the maze `A#B`. -/
theorem c2_witness :
    (mazeWall.inBounds 0 0 = true ∧ mazeWall.wallAt 0 0 = some false) ∧
    ∃ l, mazeWall.neighbors (0, 0) = some l := by
  constructor
  · exact (c2_neighbors_safe (linesOf ["A#B"]) mazeWall rfl).1 (0, 1)
      [("left", (0, 0)), ("right", (0, 2))] (by decide) "left" (0, 0) (by decide)
  · exact (c2_neighbors_safe (linesOf ["A#B"]) mazeWall rfl).2
      (by refine ⟨rfl, ?_⟩; intro row hrow; fin_cases hrow; rfl) (0, 0)

/-- Claim C3 counterexample: on the validly constructed ragged maze,
`step` applied to a frontier holding the start node raises an IndexError
(modelled as `none`) from neighbor expansion instead of returning a
boolean. -/
theorem c3_counterexample :
    mkMaze (linesOf ["#A", "B"]) = Except.ok mazeRag ∧
    mazeRag.step stInit (.stack [Node.start mazeRag.start]) = none :=
  ⟨rfl, by decide⟩

/-- Claim C3 (amended): for every maze whose wall grid is rectangular and
every frontier whose A* cost map covers its nodes, `step(frontier)`
returns `true` exactly when the node removed in that call has the goal
state and `false` in every other case, including when the frontier is
empty, and raises no exception; on ragged mazes the neighbor expansion can
raise an IndexError instead. -/
theorem c3_step_behavior (m : Maze) (st : SearchSt) (fr : Frontier)
    (hre : m.Rect) (hkeys : fr.KeysOK) :
    (fr.empty = true → m.step st fr = some (false, st, fr)) ∧
    (∀ n fr1, fr.remove = some (n, fr1) →
      ∃ st' fr', m.step st fr = some (decide (n.state = m.goal), st', fr')) := by
  constructor
  · exact step_of_empty
  · intro n fr1 hrem
    have hne : fr.empty = false := remove_some_nonempty hrem
    obtain ⟨n0, fr10, hrem0, hperm, hgEq, hisA⟩ := remove_spec fr hne
    rw [hrem0] at hrem
    simp only [Option.some_inj, Prod.mk.injEq] at hrem
    obtain ⟨h1, h2⟩ := hrem
    rw [h1] at hperm
    rw [h2] at hperm hgEq hisA
    rw [h1, h2] at hrem0
    rw [step_eq hne hrem0]
    by_cases hg : n.state = m.goal
    · rw [if_pos hg]
      refine ⟨{ st with
        num_explored := st.num_explored + 1,
        solution := some (solutionOf n), solution_found := true }, fr1, ?_⟩
      rw [decide_eq_true hg]
    · rw [if_neg hg]
      obtain ⟨nbrs, hnb⟩ := neighbors_total hre n.state
      simp only [hnb]
      have hkey : fr1.isAstar = true → fr1.gLookup n.state ≠ none := by
        intro hA
        rw [hgEq]
        exact hkeys n (hperm.mem_iff.mpr (by simp)) (hisA ▸ hA)
      have htot := expand_total m n (addSet n.state st.explored) nbrs fr1 [] hkey
      cases hex : m.expand n (addSet n.state st.explored) fr1 [] nbrs with
      | none => rw [hex] at htot; simp at htot
      | some r =>
          obtain ⟨fr2, added⟩ := r
          simp only [hex]
          refine ⟨{ st with
            num_explored := st.num_explored + 1,
            explored := addSet n.state st.explored,
            frontier_nodes := added }, fr2, ?_⟩
          rw [decide_eq_false hg]

/-- Witness for C3 on the maze `AB` with a stack frontier. -/
theorem c3_witness :
    mazeAB.step stInit (.stack []) = some (false, stInit, .stack []) ∧
    ∃ st' fr', mazeAB.step stInit (.stack [Node.start (0, 0)]) =
      some (decide ((Node.start (0, 0)).state = mazeAB.goal), st', fr') := by
  constructor
  · exact (c3_step_behavior mazeAB stInit (.stack [])
      (by refine ⟨rfl, ?_⟩; intro row hrow; fin_cases hrow; rfl)
      (fun n hn hA => by simp [Frontier.isAstar] at hA)).1 rfl
  · exact (c3_step_behavior mazeAB stInit (.stack [Node.start (0, 0)])
      (by refine ⟨rfl, ?_⟩; intro row hrow; fin_cases hrow; rfl)
      (fun n hn hA => by simp [Frontier.isAstar] at hA)).2
      (Node.start (0, 0)) (.stack []) (by decide)

/-- Claim C1 counterexample: on a validly constructed maze with ragged
rows, `solve` does not return a boolean — the neighbor expansion raises an
IndexError (modelled as `none`). -/
theorem c1_counterexample :
    mkMaze (linesOf ["#A", "B"]) = Except.ok mazeRag ∧
    mazeRag.solveL 5 stInit (.stack []) = none := ⟨rfl, by decide⟩

/-- Claim C1 (amended): for every maze whose wall grid is rectangular and
every frontier strategy, the run-to-completion `solve(frontier)` of
`laberinto.py` returns a boolean: it inserts the start node into the
frontier and loops, returning failure (false) when the frontier becomes
empty and success (true) with a stored reconstructed solution when a
removed node's state equals the goal; on ragged mazes an IndexError can
propagate instead.  (In `laberintoFinal.py` the same loop is realized by
`solve` initialization plus iterated `step`.) -/
theorem c1_solve_returns_bool (m : Maze) (strat : Strategy) (st : SearchSt)
    (hre : m.Rect) :
    ∃ b st' fr', m.solveL (m.height * m.width + 2) st (initFrontier strat m) =
      some (some b, st', fr') ∧
      (b = false → fr'.empty = true) ∧
      (b = true → ∃ p, st'.solution = some p) := by
  obtain ⟨fr1, hadd, hnodes, hkeys, hdom⟩ := init_add strat
  have hinv : SInv m { st with num_explored := 0, explored := [] } fr1 :=
    sinv_single rfl hnodes hkeys hdom
  obtain ⟨b, st', fr', hrun, hbf, hbt⟩ := solveLoopL_spec hre
    (m.height * m.width + 2) { st with num_explored := 0, explored := [] } fr1
    hinv (Nat.le_add_right _ _)
  refine ⟨b, st', fr', ?_, fun hb => (hbf hb).1, hbt⟩
  unfold Maze.solveL
  rw [hadd]
  exact hrun

/-- Witness for C1 on the rectangular maze `AB` with the stack strategy. -/
theorem c1_witness :
    ∃ b st' fr', mazeAB.solveL (mazeAB.height * mazeAB.width + 2) stInit
      (initFrontier .dfs mazeAB) = some (some b, st', fr') ∧
      (b = false → fr'.empty = true) ∧
      (b = true → ∃ p, st'.solution = some p) :=
  c1_solve_returns_bool mazeAB .dfs stInit
    (by refine ⟨rfl, ?_⟩; intro row hrow; fin_cases hrow; rfl)

/-- Claim C6 counterexample: the `solve` of `laberinto.py` does not clear
the stored solution when a new search starts — a failing search on a maze
whose goal is walled off returns failure with a previously stored (stale)
solution still present, so the solution does not "remain unset". -/
theorem c6_counterexample :
    mkMaze (linesOf ["A#B"]) = Except.ok mazeWall ∧
    mazeWall.solveL 5 { stInit with solution := some ([], []) } (.stack []) =
      some (some false, stWallStale, .stack []) ∧
    stWallStale.solution = some ([], []) := ⟨rfl, by decide, rfl⟩

/-- Claim C6 (amended): in `laberintoFinal.py`, starting a new search
(calling `solve`) clears the stored solution, and a search that exhausts
the frontier reports failure with the solution still unset; in
`laberinto.py`, `solve` does not touch the stored solution on entry, and a
failing search leaves it exactly as it was — in particular unset whenever
it was unset before. -/
theorem c6_solution_reset :
    (∀ (m : Maze) (fr : Frontier) (st' : SearchSt) (fr' : Frontier),
      m.solveF fr = some (st', fr') →
      st'.solution = none ∧ st'.solution_found = false) ∧
    (∀ (m : Maze) (strat : Strategy) (fuel : Nat) (st' : SearchSt) (fr' : Frontier),
      m.runSearch strat fuel = some (some false, st', fr') →
      st'.solution = none) ∧
    (∀ (m : Maze) (fuel : Nat) (st : SearchSt) (fr : Frontier)
      (st' : SearchSt) (fr' : Frontier),
      m.solveL fuel st fr = some (some false, st', fr') →
      st'.solution = st.solution) := by
  have part1 : ∀ (m : Maze) (fr : Frontier) (st' : SearchSt) (fr' : Frontier),
      m.solveF fr = some (st', fr') →
      st'.solution = none ∧ st'.solution_found = false := by
    intro m fr st' fr' h
    unfold Maze.solveF at h
    cases hadd : fr.add (.start m.start) with
    | none => rw [hadd] at h; exact absurd h (by simp)
    | some fr1 =>
        rw [hadd] at h
        simp only [Option.some_inj, Prod.mk.injEq] at h
        obtain ⟨h1, -⟩ := h
        rw [← h1]
        exact ⟨rfl, rfl⟩
  refine ⟨part1, ?_, ?_⟩
  · intro m strat fuel st' fr' h
    unfold Maze.runSearch at h
    cases hsf : m.solveF (initFrontier strat m) with
    | none => rw [hsf] at h; exact absurd h (by simp)
    | some r =>
        obtain ⟨st0, fr0⟩ := r
        rw [hsf] at h
        have h' : m.runF fuel st0 fr0 = some (some false, st', fr') := h
        obtain ⟨hsol, -⟩ := runF_false_spec fuel st0 fr0 st' fr' h'
        rw [hsol, (part1 m (initFrontier strat m) st0 fr0 hsf).1]
  · intro m fuel st fr st' fr' h
    unfold Maze.solveL at h
    cases hadd : fr.add (.start m.start) with
    | none => rw [hadd] at h; exact absurd h (by simp)
    | some fr1 =>
        rw [hadd] at h
        have h' : m.solveLoopL fuel { st with num_explored := 0, explored := [] }
            fr1 = some (some false, st', fr') := h
        exact solveLoopL_false_sol fuel
          { st with num_explored := 0, explored := [] } fr1 st' fr' h'

/-- Witness for C6 on concrete runs. -/
theorem c6_witness :
    (stInit.solution = none ∧ stInit.solution_found = false) ∧
    stWallDone.solution = none ∧
    stWallStale.solution =
      ({ stInit with solution := some ([], []) } : SearchSt).solution := by
  refine ⟨?_, ?_, ?_⟩
  · exact c6_solution_reset.1 mazeAB (initFrontier .dfs mazeAB) stInit
      (.stack [Node.start (0, 0)]) (by decide)
  · exact c6_solution_reset.2.1 mazeWall .bfs 5 stWallDone (.queue []) (by decide)
  · exact c6_solution_reset.2.2 mazeWall 5 { stInit with solution := some ([], []) }
      (.stack []) stWallStale (.stack []) (by decide)

/-- Claim C7: for the greedy strategy, after any sequence of adds,
`remove()` returns the node whose state has the smallest Manhattan
distance to the goal among all nodes currently in the frontier, ties
broken by insertion order (the earliest-inserted minimal node). -/
theorem c7_greedy_removal (goal : Cell) (n : Node) (ns : List Node) :
    ∃ F fr', Frontier.addAll (.greedy goal []) (n :: ns) = some F ∧
      F.remove = some (specFirstMinNode (fun x => manhattan x.state goal) n ns, fr') ∧
      (∀ x ∈ n :: ns,
        manhattan (specFirstMinNode (fun x => manhattan x.state goal) n ns).state goal ≤
          manhattan x.state goal) := by
  obtain ⟨h1, -⟩ := greedy_addAll (n :: ns) goal [] (by simp [KeySorted])
  obtain ⟨tl, htl⟩ := keyed_fold_head (fun x => manhattan x.state goal) n ns
  refine ⟨_, .greedy goal tl, h1, ?_, ?_⟩
  · show (Frontier.greedy goal (((n :: ns).map
        (fun x => (manhattan x.state goal, x))).foldl
        (fun acc p => insertTail p acc) [])).remove = _
    rw [htl]
    rfl
  · intro x hx
    have hmin := specFirstMinNode_min (fun x => manhattan x.state goal) n ns
    rcases List.mem_cons.mp hx with hx' | hx'
    · rw [hx']
      exact hmin.1
    · exact hmin.2 x hx'

/-- Claim C5: in the A* strategy, a node added with parent `p` is assigned
path cost `g = g(p) + 1` (`0` for the parentless start node) and key
`f = g + h` with `h` the Manhattan distance to the goal; `remove()`
returns the node with smallest `f`, ties broken by insertion order; and
during a search, once a state's `g` is recorded in the cost map it is
never revised downward by later insertions. -/
theorem c5_astar_costs :
    (∀ stc goal gc es s fr',
      (Frontier.astar stc goal gc es).add (Node.start s) = some fr' →
      fr'.gLookup s = some 0) ∧
    (∀ stc goal gc es s p a gp fr', alookup gc p.state = some gp →
      (Frontier.astar stc goal gc es).add (Node.child s p a) = some fr' →
      fr'.gLookup s = some (gp + 1) ∧
      fr'.entries.Perm
        (((gp + 1) + manhattan s goal, Node.child s p a) :: es)) ∧
    (∀ stc goal n ns F k ks,
      Frontier.addAll (.astar stc goal (dictInsert stc 0 []) []) (n :: ns) = some F →
      specAStarKeys goal (dictInsert stc 0 []) (n :: ns) = some (k :: ks) →
      ∃ fr', F.remove = some ((specFirstMinPair (k, n) (ks.zip ns)).2, fr') ∧
        (specFirstMinPair (k, n) (ks.zip ns)).1 ≤ k ∧
        ∀ q ∈ ks.zip ns, (specFirstMinPair (k, n) (ks.zip ns)).1 ≤ q.1) ∧
    (∀ (m : Maze) (st : SearchSt) (fr : Frontier) (b : Bool)
      (st' : SearchSt) (fr' : Frontier),
      m.Reach .astar st fr → m.step st fr = some (b, st', fr') →
      ∀ s v, fr.gLookup s = some v → ∃ v', fr'.gLookup s = some v' ∧ v ≤ v') := by
  refine ⟨?_, ?_, ?_, ?_⟩
  · intro stc goal gc es s fr' h
    simp only [Frontier.add, astarG, Option.some_inj] at h
    rw [← h]
    simp [Frontier.gLookup, alookup_dictInsert]
  · intro stc goal gc es s p a gp fr' hgp h
    have hg : astarG gc (Node.child s p a) = some (gp + 1) := by
      simp [astarG, hgp]
    simp only [Frontier.add, hg, Option.some_inj] at h
    rw [← h]
    constructor
    · simp [Frontier.gLookup, alookup_dictInsert]
    · show (pySort (es ++ [(gp + 1 + manhattan s goal, Node.child s p a)])).Perm _
      exact (pySort_perm _).trans (List.perm_append_singleton _ _)
  · intro stc goal n ns F k ks hadd hkeys
    obtain ⟨ks0, gc', hspec, hFeq, -⟩ := astar_addAll (n :: ns) stc goal
      (dictInsert stc 0 []) [] (by simp [KeySorted]) F hadd
    rw [hspec] at hkeys
    simp only [Option.some_inj] at hkeys
    subst hkeys
    obtain ⟨tl, htl⟩ := zip_fold_head (k, n) (ks.zip ns)
    subst hFeq
    refine ⟨.astar stc goal gc' tl, ?_,
      (specFirstMinPair_min (k, n) (ks.zip ns)).1,
      (specFirstMinPair_min (k, n) (ks.zip ns)).2⟩
    show (Frontier.astar stc goal gc'
        (((k :: ks).zip (n :: ns)).foldl (fun acc p => insertTail p acc) [])).remove = _
    rw [show ((k :: ks).zip (n :: ns)) = (k, n) :: ks.zip ns from rfl, htl]
    rfl
  · intro m st fr b st' fr' hr hstep s v hv
    have hinv := reach_sinv hr
    cases b with
    | true =>
        obtain ⟨n, fr1, -, -, -, -, -, hgeq⟩ := step_true_spec hstep
        exact ⟨v, by rw [hgeq]; exact hv, le_refl v⟩
    | false =>
        by_cases hfe : fr.empty = true
        · rw [step_of_empty hfe] at hstep
          simp only [Option.some_inj, Prod.mk.injEq] at hstep
          obtain ⟨-, -, h2⟩ := hstep
          exact ⟨v, by rw [← h2]; exact hv, le_refl v⟩
        · obtain ⟨-, -, -, hmono⟩ := step_false_spec hinv (bfalse hfe) hstep
          exact ⟨v, hmono s v hv, le_refl v⟩

/-- Witness for C5 on concrete A* frontiers and one step of the A* search
on the maze `AB`. -/
theorem c5_witness :
    frAdd1.gLookup (0, 1) = some 0 ∧
    (frAdd2.gLookup (0, 1) = some (0 + 1) ∧
      frAdd2.entries.Perm
        [((0 + 1) + manhattan (0, 1) (1, 1),
          Node.child (0, 1) (Node.start (0, 0)) "right")]) ∧
    (∃ fr', frAddAllB.remove =
      some ((specFirstMinPair (0, Node.start (0, 0))
        (List.zip ([] : List Nat) ([] : List Node))).2, fr') ∧
      (specFirstMinPair (0, Node.start (0, 0))
        (List.zip ([] : List Nat) ([] : List Node))).1 ≤ 0 ∧
      ∀ q ∈ List.zip ([] : List Nat) ([] : List Node),
        (specFirstMinPair (0, Node.start (0, 0))
          (List.zip ([] : List Nat) ([] : List Node))).1 ≤ q.1) ∧
    (∃ v', frABstep1.gLookup (0, 0) = some v' ∧ 0 ≤ v') := by
  refine ⟨?_, ?_, ?_, ?_⟩
  · exact c5_astar_costs.1 (0, 0) (0, 1) [] [] (0, 1) frAdd1 (by decide)
  · exact c5_astar_costs.2.1 (0, 0) (1, 1) [((0, 0), 0)] [] (0, 1)
      (Node.start (0, 0)) "right" 0 frAdd2 (by decide) (by decide)
  · exact c5_astar_costs.2.2.1 (0, 0) (0, 0) (Node.start (0, 0)) [] frAddAllB 0 []
      (by decide) (by decide)
  · exact c5_astar_costs.2.2.2 mazeAB stInit frABastar false stABstep1 frABstep1
      (Maze.Reach.init stInit frABastar (by decide)) (by decide) (0, 0) 0 (by decide)

/-- Claim C10: whenever a search reports success, the stored solution pair
(actions, cells) satisfies: both sequences have the same length, the start
cell is excluded, the last cell equals the goal, every cell in the
sequence is in bounds and not a wall, and applying each action's unit move
in order starting from the start cell yields exactly the cells sequence.
(Stated for mazes whose start and goal differ, as every validly
constructed maze's do.) -/
theorem c10_solution_valid (m : Maze) (strat : Strategy) (fuel : Nat)
    (st' : SearchSt) (fr' : Frontier)
    (hsg : m.start ≠ m.goal)
    (h : m.runSearch strat fuel = some (some true, st', fr')) :
    ∃ acts cells, st'.solution = some (acts, cells) ∧
      acts.length = cells.length ∧
      cells ≠ [] ∧
      cells.getLast? = some m.goal ∧
      m.start ∉ cells ∧
      (∀ c ∈ cells, m.inBounds c.1 c.2 = true ∧ m.wallAt c.1 c.2 = some false) ∧
      walk m.start acts = cells := by
  obtain ⟨fr1, hsolve, hinv⟩ := solveF_init strat
  unfold Maze.runSearch at h
  rw [hsolve] at h
  have h' : m.runF fuel stInit fr1 = some (some true, st', fr') := h
  obtain ⟨n, hv, hns, hgoal, hsol⟩ := runF_true_chain fuel stInit fr1 st' fr' hinv h'
  obtain ⟨hwalk, hlast⟩ := chain_walk hv
  have hnenil : chainCells n ≠ [] := by
    intro hc
    rw [hc] at hlast
    simp only [List.getLast?_singleton, Option.some_inj] at hlast
    exact hsg (by rw [hlast, hgoal])
  refine ⟨chainActs n, chainCells n, by rw [hsol, solutionOf_eq], chain_lengths n,
    hnenil, ?_, ?_, chain_cells_valid hv, hwalk⟩
  · cases hcc : chainCells n with
    | nil => exact absurd hcc hnenil
    | cons c cs =>
        rw [hcc] at hlast
        rw [List.getLast?_cons_cons] at hlast
        rw [← hgoal]
        exact hlast
  · intro hc
    exact hns m.start hc rfl

/-- Witness for C10 on the successful DFS run on the maze `AB`. -/
theorem c10_witness :
    ∃ acts cells, stABdone.solution = some (acts, cells) ∧
      acts.length = cells.length ∧
      cells ≠ [] ∧
      cells.getLast? = some mazeAB.goal ∧
      mazeAB.start ∉ cells ∧
      (∀ c ∈ cells,
        mazeAB.inBounds c.1 c.2 = true ∧ mazeAB.wallAt c.1 c.2 = some false) ∧
      walk mazeAB.start acts = cells :=
  c10_solution_valid mazeAB .dfs 4 stABdone (.stack []) (by decide) (by decide)

end Laberinto
